import Mathlib

/-!
Will.IAM: permission model and access-management listing.

A shallow embedding of `models/permission.go`, `constants/actions.go` and
`usecases/am.go`, followed by theorems about the embedded functions.

Go strings are modelled as lists of characters; the library functions used
by the sources only compare characters for equality, and the separator is
ASCII, so cutting by characters and cutting by bytes agree. The only
separator the sources ever pass to `strings.Split` and `strings.Join` is the
two-character string `"::"`, so both library functions are embedded at that
separator. A Go result pair `(value, error)` is modelled as a Lean pair whose
second component is `none` for a nil error, and a nil slice as the empty
list. Where the Go code can stop with an index out of range, the embedded
function returns an `Option`, `none` standing for that stop.
-/

namespace WillIAM

/-! ## Strings -/

/-- A Go string, as the list of its characters. -/
abbrev Str := List Char

/-- The two-character path separator used throughout the sources. -/
def sep : Str := [':', ':']

/-- Put one character in front of the first segment of a segment list. -/
def pushFront (c : Char) : List Str → List Str
  | [] => [[c]]
  | p :: ps => (c :: p) :: ps

/-- Go `strings.Split(s, "::")`: the input is cut at every occurrence of the
separator, found from the left and not overlapping; the result always has at
least one element. -/
def Split : Str → List Str
  | [] => [[]]
  | [c] => [[c]]
  | c :: d :: rest =>
    if c = ':' ∧ d = ':' then [] :: Split rest
    else pushFront c (Split (d :: rest))

/-- Go `strings.Join(elems, "::")`. -/
def Join : List Str → Str
  | [] => []
  | [a] => a
  | a :: b :: rest => a ++ sep ++ Join (b :: rest)

/-- Go `strings.HasPrefix(s, p)`: `len(s) >= len(p) && s[:len(p)] == p`. -/
def HasPrefix (s p : Str) : Bool :=
  decide (p.length ≤ s.length) && (s.take p.length == p)

/-- Go `strings.HasSuffix(s, x)`: `len(s) >= len(x) && s[len(s)-len(x):] == x`. -/
def HasSuffix (s x : Str) : Bool :=
  decide (x.length ≤ s.length) && (s.drop (s.length - x.length) == x)

/-- Go `strings.Contains(s, x)`: some position of `s` starts an occurrence of `x`. -/
def Contains : Str → Str → Bool
  | [], x => HasPrefix [] x
  | c :: t, x => HasPrefix (c :: t) x || Contains t x

/-! ## models/permission.go -/

/-- Errors. The first three are the `fmt.Errorf` values of `ValidatePermission`;
`adapter` stands for any error returned by an external collaborator. -/
inductive Err where
  | incompletePermission
  | ownershipLevel
  | emptyPart
  | adapter (code : Nat)
  deriving DecidableEq, Repr

namespace OwnershipLevels

/-- The value of `OwnershipLevels.Owner`, "RO". -/
def Owner : Str := ['R', 'O']

/-- The value of `OwnershipLevels.Lender`, "RL". -/
def Lender : Str := ['R', 'L']

end OwnershipLevels

/-- Go `BuildAction`: a conversion of the string. -/
def BuildAction (str : Str) : Str := str

/-- Go `BuildService`: a conversion of the string. -/
def BuildService (str : Str) : Str := str

/-- Go struct `ResourceHierarchy`. -/
structure ResourceHierarchy where
  Open : Bool
  Size : Nat
  Hierarchy : List Str
  deriving DecidableEq, Repr

/-- Go `BuildResourceHierarchy`. -/
def BuildResourceHierarchy (str : Str) : ResourceHierarchy :=
  let parts := Split str
  let size := parts.length
  let isOpen := if size = 1 then true else false
  { Open := isOpen, Size := size, Hierarchy := parts }

/-- Go struct `Permission`. -/
structure Permission where
  OwnershipLevel : Str
  Action : Str
  Service : Str
  ResourceHierarchy : ResourceHierarchy
  deriving DecidableEq, Repr

/-- The Go zero value `Permission{}`. -/
def zeroPermission : Permission :=
  { OwnershipLevel := [], Action := [], Service := [],
    ResourceHierarchy := { Open := false, Size := 0, Hierarchy := [] } }

/-- The loop `for _, part := range parts { if part == "" { return ... } }` of
`ValidatePermission`: true when the loop takes its early return. -/
def hasEmptyPart : List Str → Bool
  | [] => false
  | part :: rest => if part = [] then true else hasEmptyPart rest

/-- Go `ValidatePermission`. The index `parts[0]` is read only after the
length check, so the default of `getD` is never used. -/
def ValidatePermission (str : Str) : Bool × Option Err :=
  let parts := Split str
  if parts.length < 4 then (false, some Err.incompletePermission)
  else
    let ol := parts.getD 0 []
    if ol ≠ OwnershipLevels.Owner ∧ ol ≠ OwnershipLevels.Lender then
      (false, some Err.ownershipLevel)
    else if hasEmptyPart parts then (false, some Err.emptyPart)
    else (true, none)

/-- Go `BuildPermission`. The indices 0 to 3 are read only after a successful
validation, which guarantees at least four parts. -/
def BuildPermission (str : Str) : Permission × Option Err :=
  let r := ValidatePermission str
  if !r.1 then (zeroPermission, r.2)
  else
    let parts := Split str
    let ol := parts.getD 0 []
    let action := BuildAction (parts.getD 1 [])
    let service := BuildService (parts.getD 2 [])
    let rh := BuildResourceHierarchy (parts.getD 3 [])
    ({ OwnershipLevel := ol, Action := action, Service := service,
       ResourceHierarchy := rh }, none)

/-! ## constants/actions.go -/

/-- Go `constants.RolesActions`. -/
def RolesActions : List Str :=
  ["CreateRoles".toList, "EditRole".toList, "ListRoles".toList]

/-- Go `constants.ServiceAccountsActions`. -/
def ServiceAccountsActions : List Str :=
  ["CreateServiceAccounts".toList, "EditServiceAccount".toList,
   "ListServiceAccounts".toList]

/-- Go `constants.ServicesActions`. -/
def ServicesActions : List Str :=
  ["CreateServices".toList, "EditService".toList, "ListServices".toList]

/-! ## usecases/am.go -/

/-- Modelled from the spec: the struct `models.AM`, whose declaration is not
among the sources. The spec gives its fields as
`{Prefix, Alias, Complete, Lender, Owner}`; the code assigns strings to
`Prefix` and `Alias` and booleans to the other three. -/
structure AM where
  Prefix : Str
  Alias : Str
  Complete : Bool
  Lender : Bool
  Owner : Bool
  deriving DecidableEq, Repr

/-- Modelled from the spec: the role record returned by the role lookup, whose
declaration is not among the sources. The code reads its `ID` and `Name`. -/
structure Role where
  ID : Str
  Name : Str
  deriving DecidableEq, Repr

/-- Modelled from the spec: the service record of the service registry, whose
declaration is not among the sources. The spec gives
`{Name, PermissionName, AMURL}`. -/
structure Service where
  Name : Str
  PermissionName : Str
  AMURL : Str
  deriving DecidableEq, Repr

/-- The collaborators of the receiver `am`, and the one constant the code
reads that is declared outside the sources. Each collaborator is the result
of the Go call named in its comment. -/
structure Env where
  /-- The constant `constants.AppInfo.Name`, the self-namespace name. -/
  appName : Str
  /-- Result of `a.repo.Services.List()`. -/
  servicesList : List Service × Option Err
  /-- Result of `a.repo.Services.WithPermissionName(service)`. -/
  servicesWithPermissionName : Str → Service × Option Err
  /-- Result of `a.rsUC.WithNamePrefix(prefix, limit)`. -/
  rolesWithNamePrefix : Str → Nat → List Role × Option Err
  /-- Result of `http.NewRequest("GET", url, nil)`: its error, if any. -/
  newRequest : Str → Option Err
  /-- Result of `a.http.Do(req.WithContext(a.ctx))`: its error, if any. -/
  httpDo : Str → Option Err
  /-- Result of `ioutil.ReadAll(res.Body)` for the response to the request for `url`. -/
  readAll : Str → Str × Option Err
  /-- Result of `json.Unmarshal(body, &ams)`. -/
  jsonUnmarshal : Str → List AM × Option Err
  /-- Result of `serviceAccountHasPermissions(a.repo, saID, ps)`. -/
  hasPermissions : Str → List Permission → List Bool × Option Err

/-- The loop of `maybeAddStarPermissions` over `ams`: true when it takes its
early return, at the first entry whose `Prefix` ends with `"::*"`. -/
def hasStarEntry : List AM → Bool
  | [] => false
  | a :: rest => if HasSuffix a.Prefix "::*".toList then true else hasStarEntry rest

/-- Go `maybeAddStarPermissions`. -/
def maybeAddStarPermissions (pfx : Str) (ams : List AM) : List AM :=
  let parts := Split pfx
  if !HasSuffix pfx sep || decide (parts.length > 3) then ams
  else if hasStarEntry ams then ams
  else
    let star : AM :=
      { Prefix := pfx ++ "*".toList, Alias := [],
        Complete := decide (parts.length ≥ 3), Lender := false, Owner := false }
    star :: ams

/-- The closure `buildLevel` of `buildLenderAndOwnerPermissions`: a slice of
`len(parts)+1` strings holding `parts[0]`, the level, then `parts[1:]`, joined
and parsed. `Split` never returns an empty slice, so `parts[0]` exists. -/
def buildLevel (parts : List Str) (l : Str) : Permission × Option Err :=
  let level := parts.getD 0 [] :: l :: parts.drop 1
  let str := Join level
  BuildPermission str

/-- Go `buildLenderAndOwnerPermissions`. The method `String` of
`OwnershipLevel` is not among the sources; it is taken to return the level
token itself, "RL" or "RO", which is what the derived strings
`seg0::<Level>::seg1::...` of the specification carry. -/
def buildLenderAndOwnerPermissions (pfx : Str) :
    Permission × Permission × Option Err :=
  let parts := Split pfx
  let lender := buildLevel parts OwnershipLevels.Lender
  match lender.2 with
  | some e => (zeroPermission, zeroPermission, some e)
  | none =>
    let owner := buildLevel parts OwnershipLevels.Owner
    match owner.2 with
    | some e => (zeroPermission, zeroPermission, some e)
    | none => (lender.1, owner.1, none)

/-- Go `listServices`. -/
def listServices (env : Env) (pfx : Str) : List Str × Option Err :=
  match env.servicesList with
  | (_, some e) => ([], some e)
  | (services, none) =>
    let svcs := env.appName :: services.map (fun s => s.PermissionName)
    let filtered := svcs.filter (fun s => HasPrefix s pfx)
    (filtered, none)

/-- Go `listWillIAMActions`. -/
def listWillIAMActions (pfx : Str) : List Str × Option Err :=
  let all := (RolesActions ++ ServiceAccountsActions) ++ ServicesActions
  let keep := all.filter (fun a => HasPrefix a pfx)
  (keep, none)

/-- Go `actionsContains`. -/
def actionsContains : List Str → Str → Bool
  | [], _ => false
  | aa :: rest, action => if aa = action then true else actionsContains rest action

/-- Go `listRolesActionsRH`. -/
def listRolesActionsRH (env : Env) (action pfx : Str) : List AM × Option Err :=
  if action = "CreateRoles".toList ∨ action = "ListRoles".toList then ([], none)
  else
    match env.rolesWithNamePrefix pfx 10 with
    | (_, some e) => ([], some e)
    | (rs, none) =>
      (rs.map (fun r =>
        { Prefix := r.ID, Alias := r.Name, Complete := true,
          Lender := false, Owner := false }), none)

/-- Go `listWillIAMResourceHierarchies`. -/
def listWillIAMResourceHierarchies (env : Env) (action pfx : Str) :
    List AM × Option Err :=
  if actionsContains RolesActions action then listRolesActionsRH env action pfx
  else if actionsContains ServiceAccountsActions action then ([], none)
  else if actionsContains ServicesActions action then ([], none)
  else ([], none)

/-- Go `listWillIAMPermissions`. The result is `none` when the Go code stops
with an index out of range, which happens when `prefix` has a single part. -/
def listWillIAMPermissions (env : Env) (pfx : Str) :
    Option (List AM × Option Err) :=
  let parts := Split pfx
  if parts.length = 2 then
    match parts[0]?, parts[1]? with
    | some p0, some p1 =>
      match listWillIAMActions p1 with
      | (_, some e) => some ([], some e)
      | (actions, none) =>
        some (actions.map (fun a =>
          { Prefix := p0 ++ sep ++ a, Alias := [], Complete := false,
            Lender := false, Owner := false }), none)
    | _, _ => none
  else
    match parts[0]?, parts[1]?, parts[2]? with
    | some p0, some p1, some p2 =>
      match listWillIAMResourceHierarchies env p1 p2 with
      | (_, some e) => some ([], some e)
      | (ams, none) =>
        some (ams.map (fun a =>
          { a with Prefix := p0 ++ sep ++ p1 ++ sep ++ a.Prefix }), none)
    | _, _, _ => none

/-- Go `listServicePermissions`. -/
def listServicePermissions (env : Env) (service pfx : Str) :
    List AM × Option Err :=
  match env.servicesWithPermissionName service with
  | (_, some e) => ([], some e)
  | (svc, none) =>
    let prefixWOSvc := Join ((Split pfx).drop 1)
    let url := svc.AMURL ++ "?prefix=".toList ++ prefixWOSvc
    match env.newRequest url with
    | some e => ([], some e)
    | none =>
      match env.httpDo url with
      | some e => ([], some e)
      | none =>
        match env.readAll url with
        | (_, some e) => ([], some e)
        | (body, none) =>
          match env.jsonUnmarshal body with
          | (_, some e) => ([], some e)
          | (ams, none) =>
            (ams.map (fun a => { a with Prefix := service ++ sep ++ a.Prefix }), none)

/-- Go `listPermissions`. -/
def listPermissions (env : Env) (pfx : Str) : Option (List AM × Option Err) :=
  if !Contains pfx sep then
    match listServices env pfx with
    | (_, some e) => some ([], some e)
    | (services, none) =>
      some (services.map (fun s =>
        { Prefix := s, Alias := [], Complete := false,
          Lender := false, Owner := false }), none)
  else
    let parts := Split pfx
    let service := parts.getD 0 []
    if service = env.appName then listWillIAMPermissions env pfx
    else some (listServicePermissions env service pfx)

/-- The first loop of `List`: from position `i` on, the derived Lender and
Owner permissions of every Complete entry are appended to `ps` and the
entry's index to `is`; the loop stops at the first derivation error. -/
def collectComplete : List AM → Nat → List Permission → List Nat →
    (List Permission × List Nat) × Option Err
  | [], _, ps, is => ((ps, is), none)
  | a :: rest, i, ps, is =>
    if a.Complete then
      match buildLenderAndOwnerPermissions a.Prefix with
      | (_, _, some e) => (([], []), some e)
      | (lender, owner, none) =>
        collectComplete rest (i + 1) (ps ++ [lender, owner]) (is ++ [i])
    else collectComplete rest (i + 1) ps is

/-- The second loop of `List`, from its `i`-th round on: entry `is[i]` gets
`Lender = hasSl[2*i]` and `Owner = hasSl[2*i+1]`. The result is `none` when
an index is out of range. -/
def annotateHoldings (hasSl : List Bool) : List Nat → Nat → List AM → Option (List AM)
  | [], _, ams => some ams
  | idx :: rest, i, ams =>
    match ams[idx]?, hasSl[2 * i]?, hasSl[2 * i + 1]? with
    | some a, some l, some o =>
      annotateHoldings hasSl rest (i + 1) (ams.set idx { a with Lender := l, Owner := o })
    | _, _, _ => none

/-- Go `am.List`. The result is `none` when the Go code stops with an index
out of range. -/
def amList (env : Env) (saID pfx : Str) : Option (List AM × Option Err) :=
  match listPermissions env pfx with
  | none => none
  | some (_, some e) => some ([], some e)
  | some (ams0, none) =>
    let ams := maybeAddStarPermissions pfx ams0
    match collectComplete ams 0 [] [] with
    | (_, some e) => some ([], some e)
    | ((ps, is), none) =>
      match env.hasPermissions saID ps with
      | (_, some e) => some ([], some e)
      | (hasSl, none) =>
        match annotateHoldings hasSl is 0 ams with
        | none => none
        | some ams1 => some (ams1, none)

/-! ## The request of the remote resolver -/

/-- The URL string that `listServicePermissions` hands to `http.NewRequest`:
`fmt.Sprintf("%s?prefix=%s", svc.AMURL, prefixWOSvc)`, where `prefixWOSvc` is
`strings.Join(strings.Split(prefix, "::")[1:], "::")`. Nothing is escaped. -/
def requestURL (svc : Service) (pfx : Str) : Str :=
  svc.AMURL ++ "?prefix=".toList ++ Join ((Split pfx).drop 1)

/-- Go `strings.Cut(s, string(c))`, its first result: the text before the
first `c`, or all of `s` when `c` does not occur. -/
def cutBefore (c : Char) : Str → Str
  | [] => []
  | x :: t => if x = c then [] else x :: cutBefore c t

/-- Go `strings.Cut(s, string(c))`, its second result: the text after the
first `c`, or the empty string when `c` does not occur. -/
def cutAfter (c : Char) : Str → Str
  | [] => []
  | x :: t => if x = c then t else cutAfter c t

/-- Go `url.Parse(rawURL).RawQuery`, the query that `http.NewRequest` gives
the request it builds from the URL string: `url.Parse` first cuts the
fragment off at the first '#', and the query is the text after the first '?'
of what is left. The fragment is not part of the request that is sent. -/
def urlRawQuery (rawURL : Str) : Str := cutAfter '?' (cutBefore '#' rawURL)

/-! ## Example collaborators -/

/-- A deployment whose self-namespace name is `name`, with an empty service
registry, a role lookup that finds no role, and a Holdings Checker that
answers `held` for every batch. -/
def emptyEnv (name : Str) (held : List Bool) : Env :=
  { appName := name
    servicesList := ([], none)
    servicesWithPermissionName := fun _ => ({ Name := [], PermissionName := [], AMURL := [] }, none)
    rolesWithNamePrefix := fun _ _ => ([], none)
    newRequest := fun _ => none
    httpDo := fun _ => none
    readAll := fun _ => ([], none)
    jsonUnmarshal := fun _ => ([], none)
    hasPermissions := fun _ _ => (held, none) }

/-- The zero value of the service record. -/
def zeroService : Service := { Name := [], PermissionName := [], AMURL := [] }

/-- A deployment with self-namespace name `name`, the registered `services`,
the role lookup `roles`, a remote endpoint that answers every request with
the entry list `remote`, and a Holdings Checker that answers `held` for every
batch. A permission name that is not registered is a lookup error. -/
def stubEnv (name : Str) (services : List Service)
    (roles : Str → Nat → List Role × Option Err) (remote : List AM)
    (held : List Bool × Option Err) : Env :=
  { appName := name
    servicesList := (services, none)
    servicesWithPermissionName := fun n =>
      match services.find? (fun s => s.PermissionName = n) with
      | some s => (s, none)
      | none => (zeroService, some (Err.adapter 404))
    rolesWithNamePrefix := roles
    newRequest := fun _ => none
    httpDo := fun _ => none
    readAll := fun url => (url, none)
    jsonUnmarshal := fun _ => (remote, none)
    hasPermissions := fun _ _ => held }

/-- A role lookup that knows one role under one name-prefix: it returns
`[r]` when asked for `key` and no role otherwise. -/
def lookupAt (key : Str) (r : Role) : Str → Nat → List Role × Option Err :=
  fun p _ => if p = key then ([r], none) else ([], none)

/-! ## The holdings annotation, as the specification words it -/

/-- The batch submitted to the Holdings Checker, in the specification's
words: over the Complete entries in list order, the derived Lender permission
followed by the derived Owner permission. -/
def specHoldingsBatch : List AM → List Permission
  | [] => []
  | a :: rest =>
    if a.Complete then
      (buildLenderAndOwnerPermissions a.Prefix).1 ::
        (buildLenderAndOwnerPermissions a.Prefix).2.1 :: specHoldingsBatch rest
    else specHoldingsBatch rest

/-- The annotated list, in the specification's words: the entries in their
order, where the Complete entry number `k` (counted from the argument `k` on)
has `Lender = h[2k]` and `Owner = h[2k+1]` and every other entry is
unchanged. A missing answer is read as false. -/
def specAnnotate (h : List Bool) : Nat → List AM → List AM
  | _, [] => []
  | k, a :: rest =>
    if a.Complete then
      { a with Lender := h.getD (2 * k) false, Owner := h.getD (2 * k + 1) false } ::
        specAnnotate h (k + 1) rest
    else a :: specAnnotate h k rest

/-- The positions of the Complete entries of a list whose first entry has
position `i`. -/
def completeIndices : List AM → Nat → List Nat
  | [], _ => []
  | a :: rest, i =>
    if a.Complete then i :: completeIndices rest (i + 1) else completeIndices rest (i + 1)

/-- The number of Complete entries of a list. -/
def countComplete : List AM → Nat
  | [] => 0
  | a :: rest => if a.Complete then countComplete rest + 1 else countComplete rest

/-! ## Facts about `Split` and `Join` -/

theorem pushFront_ne_nil (c : Char) (l : List Str) : pushFront c l ≠ [] := by
  cases l <;> simp [pushFront]

theorem pushFront_length (c : Char) (l : List Str) (h : l ≠ []) :
    (pushFront c l).length = l.length := by
  cases l with
  | nil => exact absurd rfl h
  | cons p ps => simp [pushFront]

theorem Split_ne_nil (s : Str) : Split s ≠ [] := by
  induction s using Split.induct with
  | case1 => simp [Split]
  | case2 c => simp [Split]
  | case3 c d rest h ih => simp [Split, h]
  | case4 c d rest h ih => simp only [Split, h, if_false]; exact pushFront_ne_nil _ _

theorem Split_length_pos (s : Str) : 0 < (Split s).length :=
  List.length_pos.mpr (Split_ne_nil s)

/-- A character that does not start a separator goes to the first segment. -/
theorem Split_cons (c : Char) (t : Str) (h : ¬ (c = ':' ∧ t.head? = some ':')) :
    Split (c :: t) = pushFront c (Split t) := by
  cases t with
  | nil => simp [Split, pushFront]
  | cons d r =>
    have h2 : ¬ (c = ':' ∧ d = ':') := by simpa using h
    simp only [Split, h2, if_false]

theorem Split_sep_cons (t : Str) : Split (':' :: ':' :: t) = [] :: Split t := by
  simp [Split]

theorem Join_pushFront (c : Char) (l : List Str) (h : l ≠ []) :
    Join (pushFront c l) = c :: Join l := by
  match l, h with
  | [a], _ => simp [pushFront, Join]
  | a :: b :: rest, _ => simp [pushFront, Join]

/-- Joining the parts of a string gives the string back. -/
theorem Join_Split (s : Str) : Join (Split s) = s := by
  induction s using Split.induct with
  | case1 => simp [Split, Join]
  | case2 c => simp [Split, Join]
  | case3 c d rest h ih =>
    obtain ⟨hc, hd⟩ := h
    subst hc; subst hd
    rw [Split_sep_cons]
    cases hs : Split rest with
    | nil => exact absurd hs (Split_ne_nil rest)
    | cons b bs => rw [hs] at ih; simp [Join, sep, ih]
  | case4 c d rest h ih =>
    simp only [Split, h, if_false]
    rw [Join_pushFront _ _ (Split_ne_nil _), ih]

theorem take_succ_pushFront (c : Char) (l : List Str) (k : Nat) (h : l ≠ []) :
    (pushFront c l).take (k + 1) = pushFront c (l.take (k + 1)) := by
  cases l with
  | nil => exact absurd rfl h
  | cons p ps => simp [pushFront]

theorem take_succ_ne_nil (l : List Str) (k : Nat) (h : l ≠ []) : l.take (k + 1) ≠ [] := by
  cases l with
  | nil => exact absurd rfl h
  | cons p ps => simp

/-- The first parts of a string, joined, are a beginning of the string. -/
theorem Join_take_Split_isPrefix (s : Str) (k : Nat) :
    Join ((Split s).take (k + 1)) <+: s := by
  induction s using Split.induct generalizing k with
  | case1 => simp [Split, Join]
  | case2 c => simp [Split, Join]
  | case3 c d rest h ih =>
    obtain ⟨hc, hd⟩ := h
    subst hc; subst hd
    rw [Split_sep_cons]
    cases k with
    | zero => simp [Join]
    | succ k =>
      have hne := take_succ_ne_nil _ k (Split_ne_nil rest)
      cases ht : (Split rest).take (k + 1) with
      | nil => exact absurd ht hne
      | cons b bs =>
        have := ih k
        rw [ht] at this
        simp only [List.take_succ_cons, ht, Join, sep, List.nil_append, List.cons_append]
        exact (List.prefix_cons_inj _).mpr ((List.prefix_cons_inj _).mpr this)
  | case4 c d rest h ih =>
    simp only [Split, h, if_false]
    rw [take_succ_pushFront _ _ _ (Split_ne_nil _),
      Join_pushFront _ _ (take_succ_ne_nil _ _ (Split_ne_nil _))]
    exact (List.prefix_cons_inj _).mpr (ih k)

/-- Splitting the joined first parts of a string gives those parts back. -/
theorem Split_Join_take_Split (s : Str) (k : Nat) :
    Split (Join ((Split s).take (k + 1))) = (Split s).take (k + 1) := by
  induction s using Split.induct generalizing k with
  | case1 => simp [Split, Join]
  | case2 c => simp [Split, Join]
  | case3 c d rest h ih =>
    obtain ⟨hc, hd⟩ := h
    subst hc; subst hd
    rw [Split_sep_cons]
    cases k with
    | zero => simp [Join, Split]
    | succ k =>
      have hne := take_succ_ne_nil _ k (Split_ne_nil rest)
      have := ih k
      cases ht : (Split rest).take (k + 1) with
      | nil => exact absurd ht hne
      | cons b bs =>
        rw [ht] at this
        simp only [List.take_succ_cons, ht, Join, sep, List.nil_append, List.cons_append]
        rw [Split_sep_cons, this]
  | case4 c d rest h ih =>
    have hpre := Join_take_Split_isPrefix (d :: rest) k
    simp only [Split, h, if_false]
    rw [take_succ_pushFront _ _ _ (Split_ne_nil _),
      Join_pushFront _ _ (take_succ_ne_nil _ _ (Split_ne_nil _))]
    rw [Split_cons, ih k]
    rintro ⟨hc, hh⟩
    apply h
    refine ⟨hc, ?_⟩
    cases hj : Join ((Split (d :: rest)).take (k + 1)) with
    | nil => rw [hj] at hh; simp at hh
    | cons x xs =>
      rw [hj] at hh hpre
      have hx : x = d := by
        obtain ⟨t, ht⟩ := hpre
        simp at ht
        exact ht.1
      simp at hh
      rw [← hx, hh]

/-- No part of a string contains the separator. -/
theorem Split_part (s p : Str) (hp : p ∈ Split s) : Split p = [p] := by
  induction s using Split.induct with
  | case1 => simp [Split] at hp; subst hp; simp [Split]
  | case2 c => simp [Split] at hp; subst hp; simp [Split]
  | case3 c d rest h ih =>
    simp only [Split, h, if_true, and_self, List.mem_cons] at hp
    rcases hp with hp | hp
    · subst hp; simp [Split]
    · exact ih hp
  | case4 c d rest h ih =>
    have h0 := Split_Join_take_Split (c :: d :: rest) 0
    simp only [Split, h, if_false] at hp h0
    cases hs : Split (d :: rest) with
    | nil => exact absurd hs (Split_ne_nil _)
    | cons a as =>
      rw [hs] at hp h0 ih
      simp only [pushFront, List.mem_cons] at hp
      rcases hp with hp | hp
      · subst hp
        simpa [pushFront, Join] using h0
      · exact ih (List.mem_cons_of_mem _ hp)

/-- A segment without a colon, followed by a separator, is split off whole. -/
theorem Split_append_sep (a t : Str) (h : ':' ∉ a) :
    Split (a ++ sep ++ t) = a :: Split t := by
  induction a with
  | nil => simp [sep, Split]
  | cons c a ih =>
    have hc : c ≠ ':' := fun e => h (by simp [e])
    have ha : ':' ∉ a := fun e => h (List.mem_cons_of_mem _ e)
    have := Split_cons c (a ++ sep ++ t) (fun e => hc e.1)
    simp only [List.cons_append] at this ⊢
    rw [this, ih ha, pushFront]

/-- A string without a colon is its own single part. -/
theorem Split_no_colon (a : Str) (h : ':' ∉ a) : Split a = [a] := by
  induction a with
  | nil => simp [Split]
  | cons c a ih =>
    have hc : c ≠ ':' := fun e => h (by simp [e])
    have ha : ':' ∉ a := fun e => h (List.mem_cons_of_mem _ e)
    rw [Split_cons c a (fun e => hc e.1), ih ha, pushFront]

/-- A string has a single part exactly when it does not contain the separator. -/
theorem Split_length_eq_one_iff (s : Str) :
    (Split s).length = 1 ↔ Contains s sep = false := by
  induction s using Split.induct with
  | case1 => simp [Split, Contains, HasPrefix, sep]
  | case2 c => simp [Split, Contains, HasPrefix, sep]
  | case3 c d rest h ih =>
    obtain ⟨hc, hd⟩ := h
    subst hc; subst hd
    have := Split_ne_nil rest
    simp [Split, Contains, HasPrefix, sep, this]
  | case4 c d rest h ih =>
    simp only [Split, h, if_false]
    have hC : Contains (c :: d :: rest) sep
        = (HasPrefix (c :: d :: rest) sep || Contains (d :: rest) sep) := rfl
    rw [pushFront_length _ _ (Split_ne_nil _), ih, hC]
    have h2 : HasPrefix (c :: d :: rest) sep = false := by
      simp only [HasPrefix, sep]
      simp
      intro hc hd
      exact absurd ⟨hc, hd⟩ h
    rw [h2, Bool.false_or]

theorem hasEmptyPart_iff (parts : List Str) : hasEmptyPart parts = true ↔ [] ∈ parts := by
  induction parts with
  | nil => simp [hasEmptyPart]
  | cons p ps ih =>
    by_cases hp : p = []
    · simp [hasEmptyPart, hp]
    · simp only [hasEmptyPart, hp, if_false, ih, List.mem_cons]
      constructor
      · exact Or.inr
      · rintro (e | e)
        · exact absurd e.symm hp
        · exact e

/-! ## Facts about `ValidatePermission` and `BuildPermission` -/

theorem head?_eq_getD (parts : List Str) (h : parts ≠ []) :
    parts.head? = some (parts.getD 0 []) := by
  cases parts with
  | nil => exact absurd rfl h
  | cons p ps => simp

/-- The three ways `ValidatePermission` fails, and the only way it succeeds. -/
theorem ValidatePermission_eq (s : Str) :
    ValidatePermission s =
      if (Split s).length < 4 then (false, some Err.incompletePermission)
      else if (Split s).head? ≠ some OwnershipLevels.Owner ∧
          (Split s).head? ≠ some OwnershipLevels.Lender then (false, some Err.ownershipLevel)
      else if [] ∈ Split s then (false, some Err.emptyPart)
      else (true, none) := by
  have hh := head?_eq_getD (Split s) (Split_ne_nil s)
  unfold ValidatePermission
  simp only [hh, ne_eq, Option.some.injEq]
  have he := hasEmptyPart_iff (Split s)
  split_ifs with h1 h2 h3 h4 h5
  · rfl
  · rfl
  · rfl
  · exact absurd (he.mp h3) h4
  · exact absurd (he.mpr h5) h3
  · rfl

/-- A failed validation makes `BuildPermission` return the zero value and
the validation error. -/
theorem BuildPermission_of_invalid (s : Str) (e : Err)
    (h : ValidatePermission s = (false, some e)) :
    BuildPermission s = (zeroPermission, some e) := by
  simp [BuildPermission, h]

/-- A successful validation makes `BuildPermission` return the permission
read off the first four parts. -/
theorem BuildPermission_of_valid (s : Str) (h : ValidatePermission s = (true, none)) :
    BuildPermission s =
      ({ OwnershipLevel := (Split s).getD 0 [], Action := (Split s).getD 1 [],
         Service := (Split s).getD 2 [],
         ResourceHierarchy := BuildResourceHierarchy ((Split s).getD 3 []) }, none) := by
  simp [BuildPermission, h, BuildAction, BuildService]

/-- Validation either succeeds with no error or fails with one. -/
theorem ValidatePermission_cases (s : Str) :
    ValidatePermission s = (true, none) ∨ ∃ e, ValidatePermission s = (false, some e) := by
  rw [ValidatePermission_eq]
  split_ifs
  · exact Or.inr ⟨_, rfl⟩
  · exact Or.inr ⟨_, rfl⟩
  · exact Or.inr ⟨_, rfl⟩
  · exact Or.inl rfl

/-- When `BuildPermission` returns no error, validation succeeded. -/
theorem ValidatePermission_of_BuildPermission (s : Str) (h : (BuildPermission s).2 = none) :
    ValidatePermission s = (true, none) := by
  rcases ValidatePermission_cases s with hv | ⟨e, hv⟩
  · exact hv
  · rw [BuildPermission_of_invalid s e hv] at h
    simp at h

/-- What a successful validation says about the parts. -/
theorem ValidatePermission_ok (s : Str) (h : ValidatePermission s = (true, none)) :
    4 ≤ (Split s).length ∧
    ((Split s).head? = some OwnershipLevels.Owner ∨
      (Split s).head? = some OwnershipLevels.Lender) ∧
    [] ∉ Split s := by
  rw [ValidatePermission_eq] at h
  split_ifs at h with h4 hol he
  · simp at h
  · simp at h
  · simp at h
  · refine ⟨by omega, ?_, he⟩
    by_contra hc
    push_neg at hc
    exact hol ⟨hc.1, hc.2⟩

/-- At least four parts, none empty, the first an ownership level: the
validation succeeds. -/
theorem ValidatePermission_of_parts (s : Str)
    (h4 : 4 ≤ (Split s).length) (hne : [] ∉ Split s)
    (hol : (Split s).head? = some OwnershipLevels.Owner ∨
      (Split s).head? = some OwnershipLevels.Lender) :
    ValidatePermission s = (true, none) := by
  rw [ValidatePermission_eq]
  have h4n : ¬ (Split s).length < 4 := by omega
  have holn : ¬ ((Split s).head? ≠ some OwnershipLevels.Owner ∧
      (Split s).head? ≠ some OwnershipLevels.Lender) := by
    rintro ⟨a, b⟩
    rcases hol with c | c
    · exact a c
    · exact b c
  simp only [h4n, holn, hne, if_false]

/-- Splitting the joined last parts of a string gives those parts back. -/
theorem Split_Join_drop_Split (s : Str) (k : Nat) (hk : k < (Split s).length) :
    Split (Join ((Split s).drop k)) = (Split s).drop k := by
  induction s using Split.induct generalizing k with
  | case1 =>
    have : k = 0 := by simp [Split] at hk; exact hk
    subst this; simp [Split, Join]
  | case2 c =>
    have : k = 0 := by simp [Split] at hk; exact hk
    subst this; simp [Split, Join]
  | case3 c d rest h ih =>
    cases k with
    | zero => rw [List.drop_zero, Join_Split]
    | succ k =>
      simp only [Split, h, and_self, if_true, List.length_cons, List.drop_succ_cons] at hk ⊢
      exact ih k (by omega)
  | case4 c d rest h ih =>
    cases k with
    | zero => rw [List.drop_zero, Join_Split]
    | succ k =>
      simp only [Split, h, if_false] at hk ⊢
      rw [pushFront_length _ _ (Split_ne_nil _)] at hk
      have hd : (pushFront c (Split (d :: rest))).drop (k + 1)
          = (Split (d :: rest)).drop (k + 1) := by
        cases hs : Split (d :: rest) with
        | nil => exact absurd hs (Split_ne_nil _)
        | cons a as => simp [pushFront]
      rw [hd]
      exact ih (k + 1) hk

/-- The hierarchy `BuildPermission` returns is built from the fourth part
alone, which holds no separator: it is open, of size one. -/
theorem BuildPermission_hierarchy (s : Str) (h : ValidatePermission s = (true, none)) :
    (BuildPermission s).1.ResourceHierarchy =
      { Open := true, Size := 1, Hierarchy := [(Split s).getD 3 []] } := by
  obtain ⟨h4, _, _⟩ := ValidatePermission_ok s h
  rw [BuildPermission_of_valid s h]
  have hmem : (Split s).getD 3 [] ∈ Split s := by
    rw [List.getD_eq_getElem _ _ (by omega)]
    exact List.getElem_mem _
  have hp := Split_part s _ hmem
  simp only [BuildResourceHierarchy, hp, List.length_singleton, if_true]

/-! ## Facts about the listing engine -/

/-- The embedded `strings.HasSuffix` decides "ends with". -/
theorem HasSuffix_iff (s x : Str) : HasSuffix s x = true ↔ x <:+ s := by
  simp only [HasSuffix, Bool.and_eq_true, decide_eq_true_eq, beq_iff_eq]
  constructor
  · rintro ⟨_, h⟩
    exact List.suffix_iff_eq_drop.mpr h.symm
  · intro h
    exact ⟨h.length_le, (List.suffix_iff_eq_drop.mp h).symm⟩

/-- The loop over the entries stops early exactly when some entry's Prefix
ends with "::*". -/
theorem hasStarEntry_iff (ams : List AM) :
    hasStarEntry ams = true ↔ ∃ a ∈ ams, "::*".toList <:+ a.Prefix := by
  induction ams with
  | nil => simp [hasStarEntry]
  | cons a rest ih =>
    by_cases h : HasSuffix a.Prefix "::*".toList = true
    · simp only [hasStarEntry, h, if_true, List.mem_cons, true_iff]
      exact ⟨a, Or.inl rfl, (HasSuffix_iff _ _).mp h⟩
    · have e : hasStarEntry (a :: rest) = hasStarEntry rest := by
        rw [hasStarEntry, if_neg h]
      rw [e, ih]
      constructor
      · rintro ⟨b, hb, hs⟩
        exact ⟨b, List.mem_cons_of_mem _ hb, hs⟩
      · rintro ⟨b, hb, hs⟩
        rcases List.mem_cons.mp hb with hb | hb
        · subst hb
          exact absurd ((HasSuffix_iff _ _).mpr hs) h
        · exact ⟨b, hb, hs⟩

/-! ## Claims -/

/-- C1: a string whose split on "::" has fewer than four parts is rejected:
`ValidatePermission` returns false with an error, and `BuildPermission`
returns the zero Permission with that error. -/
theorem C1_fewer_than_four_parts (s : Str) (h : (Split s).length < 4) :
    ∃ e, ValidatePermission s = (false, some e) ∧
      BuildPermission s = (zeroPermission, some e) := by
  have hv : ValidatePermission s = (false, some Err.incompletePermission) := by
    rw [ValidatePermission_eq]; simp [h]
  exact ⟨_, hv, BuildPermission_of_invalid s _ hv⟩

theorem C1_fewer_than_four_parts_witness :
    (Split "RO::Act::Svc".toList).length < 4 ∧
    ∃ e, ValidatePermission "RO::Act::Svc".toList = (false, some e) ∧
      BuildPermission "RO::Act::Svc".toList = (zeroPermission, some e) :=
  ⟨by decide, C1_fewer_than_four_parts "RO::Act::Svc".toList (by decide)⟩

/-- C2: a string one of whose "::"-parts is empty, in any position, is
rejected: `ValidatePermission` returns false with an error and
`BuildPermission` fails with that error. -/
theorem C2_empty_part (s : Str) (h : [] ∈ Split s) :
    ∃ e, ValidatePermission s = (false, some e) ∧
      BuildPermission s = (zeroPermission, some e) := by
  have hv : ∃ e, ValidatePermission s = (false, some e) := by
    rw [ValidatePermission_eq]
    split_ifs
    · exact ⟨_, rfl⟩
    · exact ⟨_, rfl⟩
    · exact ⟨_, rfl⟩
  obtain ⟨e, hv⟩ := hv
  exact ⟨e, hv, BuildPermission_of_invalid s e hv⟩

theorem C2_empty_part_witness :
    [] ∈ Split "RO::Act::Svc::a::::b".toList ∧
    ∃ e, ValidatePermission "RO::Act::Svc::a::::b".toList = (false, some e) ∧
      BuildPermission "RO::Act::Svc::a::::b".toList = (zeroPermission, some e) :=
  ⟨by decide, C2_empty_part "RO::Act::Svc::a::::b".toList (by decide)⟩

/-- C3: when `BuildPermission` succeeds, the first "::"-part of the input is
exactly "RO" or "RL" and is the returned OwnershipLevel; and when the first
part is any other token, `ValidatePermission` and `BuildPermission` fail. -/
theorem C3_ownership_level (s : Str) :
    ((BuildPermission s).2 = none →
      ∃ p, (Split s).head? = some p ∧
        (p = OwnershipLevels.Owner ∨ p = OwnershipLevels.Lender) ∧
        (BuildPermission s).1.OwnershipLevel = p) ∧
    (∀ p, (Split s).head? = some p →
      p ≠ OwnershipLevels.Owner → p ≠ OwnershipLevels.Lender →
      ∃ e, ValidatePermission s = (false, some e) ∧
        BuildPermission s = (zeroPermission, some e)) := by
  constructor
  · intro h
    have hv := ValidatePermission_of_BuildPermission s h
    obtain ⟨_, hol, _⟩ := ValidatePermission_ok s hv
    have hh := head?_eq_getD (Split s) (Split_ne_nil s)
    refine ⟨(Split s).getD 0 [], hh, ?_, ?_⟩
    · rw [hh] at hol
      simpa using hol
    · rw [BuildPermission_of_valid s hv]
  · intro p hp hO hL
    have hv : ∃ e, ValidatePermission s = (false, some e) := by
      rw [ValidatePermission_eq]
      split_ifs with h4 hol he
      · exact ⟨_, rfl⟩
      · exact ⟨_, rfl⟩
      · exfalso; apply hol; rw [hp]; simp [hO, hL]
      · exfalso; apply hol; rw [hp]; simp [hO, hL]
    obtain ⟨e, hv⟩ := hv
    exact ⟨e, hv, BuildPermission_of_invalid s e hv⟩

theorem C3_ownership_level_witness :
    (∃ p, (Split "RL::Act::Svc::res".toList).head? = some p ∧
        (p = OwnershipLevels.Owner ∨ p = OwnershipLevels.Lender) ∧
        (BuildPermission "RL::Act::Svc::res".toList).1.OwnershipLevel = p) ∧
    (∃ e, ValidatePermission "RX::Act::Svc::res".toList = (false, some e) ∧
        BuildPermission "RX::Act::Svc::res".toList = (zeroPermission, some e)) :=
  ⟨(C3_ownership_level "RL::Act::Svc::res".toList).1 (by decide),
   (C3_ownership_level "RX::Act::Svc::res".toList).2 "RX".toList
     (by decide) (by decide) (by decide)⟩

/-- C4: a string that splits on "::" into at least four parts, all non-empty,
the first being "RO" or "RL", is accepted: `ValidatePermission` returns
(true, nil), and `BuildPermission` succeeds with Action the second part and
Service the third part, both non-empty. -/
theorem C4_canonical_format_accepted (s : Str)
    (h4 : 4 ≤ (Split s).length) (hne : [] ∉ Split s)
    (hol : (Split s).head? = some OwnershipLevels.Owner ∨
      (Split s).head? = some OwnershipLevels.Lender) :
    ValidatePermission s = (true, none) ∧
    (BuildPermission s).2 = none ∧
    (Split s)[1]? = some (BuildPermission s).1.Action ∧
    (Split s)[2]? = some (BuildPermission s).1.Service ∧
    (BuildPermission s).1.Action ≠ [] ∧
    (BuildPermission s).1.Service ≠ [] := by
  have hv := ValidatePermission_of_parts s h4 hne hol
  rw [BuildPermission_of_valid s hv]
  match hs : Split s, h4, hne with
  | p0 :: p1 :: p2 :: p3 :: rest, _, hne =>
    simp only [List.mem_cons, not_or] at hne
    rw [← hs]
    refine ⟨hv, rfl, ?_, ?_, ?_, ?_⟩ <;> simp [hs]
    · exact fun e => hne.2.1 e.symm
    · exact fun e => hne.2.2.1 e.symm

theorem C4_canonical_format_accepted_witness :
    ValidatePermission "RO::Act::Svc::a::b".toList = (true, none) ∧
    (BuildPermission "RO::Act::Svc::a::b".toList).2 = none ∧
    (Split "RO::Act::Svc::a::b".toList)[1]?
      = some (BuildPermission "RO::Act::Svc::a::b".toList).1.Action ∧
    (Split "RO::Act::Svc::a::b".toList)[2]?
      = some (BuildPermission "RO::Act::Svc::a::b".toList).1.Service ∧
    (BuildPermission "RO::Act::Svc::a::b".toList).1.Action ≠ [] ∧
    (BuildPermission "RO::Act::Svc::a::b".toList).1.Service ≠ [] :=
  C4_canonical_format_accepted "RO::Act::Svc::a::b".toList
    (by decide) (by decide) (by decide)

/-- C5: on "RO::Act::Svc::a::b" `BuildPermission` succeeds and returns the
hierarchy of the fourth part alone, Open=true, Size=1, Hierarchy=["a"], while
`BuildResourceHierarchy` of the remainder after the third "::", "a::b", is
Open=false, Size=2, Hierarchy=["a","b"]. -/
theorem C5_hierarchy_at_five_parts :
    (BuildPermission "RO::Act::Svc::a::b".toList).2 = none ∧
    (BuildPermission "RO::Act::Svc::a::b".toList).1.ResourceHierarchy
      = { Open := true, Size := 1, Hierarchy := ["a".toList] } ∧
    Join ((Split "RO::Act::Svc::a::b".toList).drop 3) = "a::b".toList ∧
    BuildResourceHierarchy (Join ((Split "RO::Act::Svc::a::b".toList).drop 3))
      = { Open := false, Size := 2, Hierarchy := ["a".toList, "b".toList] } := by
  decide

/-- C6: `BuildResourceHierarchy` returns the parts of its input split on
"::" as Hierarchy and their number as Size; Open is true exactly when the
input contains no "::", which is exactly when Size is 1. A string without
separator gives Open=true, Size=1 and itself as only segment, and "a::b::c"
gives Open=false, Size=3, Hierarchy=["a","b","c"]. -/
theorem C6_BuildResourceHierarchy (str : Str) :
    (BuildResourceHierarchy str).Hierarchy = Split str ∧
    (BuildResourceHierarchy str).Size = (Split str).length ∧
    ((BuildResourceHierarchy str).Open = true ↔ Contains str sep = false) ∧
    ((BuildResourceHierarchy str).Open = true ↔ (BuildResourceHierarchy str).Size = 1) ∧
    (Contains str sep = false →
      BuildResourceHierarchy str = { Open := true, Size := 1, Hierarchy := [str] }) ∧
    BuildResourceHierarchy "a::b::c".toList
      = { Open := false, Size := 3, Hierarchy := ["a".toList, "b".toList, "c".toList] } := by
  have hopen : (BuildResourceHierarchy str).Open = true ↔ (Split str).length = 1 := by
    simp [BuildResourceHierarchy]
  refine ⟨rfl, rfl, ?_, hopen, ?_, by decide⟩
  · rw [hopen, Split_length_eq_one_iff]
  · intro hc
    have h1 := (Split_length_eq_one_iff str).mpr hc
    have hj := Join_Split str
    match hs : Split str, h1 with
    | [x], _ =>
      rw [hs] at hj
      simp only [Join] at hj
      simp [BuildResourceHierarchy, hs, hj]

theorem C6_BuildResourceHierarchy_witness :
    BuildResourceHierarchy "sniper3d-red".toList
      = { Open := true, Size := 1, Hierarchy := ["sniper3d-red".toList] } :=
  (C6_BuildResourceHierarchy "sniper3d-red".toList).2.2.2.2.1 (by decide)

/-- C7, as stated, fails: `BuildResourceHierarchy` keeps empty segments. On
"a::" the Hierarchy is ["a", ""], and on "" it is [""]. -/
theorem C7_empty_segment_counterexample :
    ¬ (∀ x ∈ (BuildResourceHierarchy "a::".toList).Hierarchy, x ≠ []) ∧
    ¬ (∀ x ∈ (BuildResourceHierarchy []).Hierarchy, x ≠ []) := by
  decide

/-- C7, amended: for every string accepted by `ValidatePermission`, every
segment of the hierarchy returned by `BuildPermission` is non-empty, and so
is every segment of `BuildResourceHierarchy` applied to the remainder after
the third "::" (the fourth and later parts joined with "::"). -/
theorem C7_segments_nonempty_when_valid (s : Str)
    (h : ValidatePermission s = (true, none)) :
    (∀ x ∈ (BuildPermission s).1.ResourceHierarchy.Hierarchy, x ≠ []) ∧
    (∀ x ∈ (BuildResourceHierarchy (Join ((Split s).drop 3))).Hierarchy, x ≠ []) := by
  obtain ⟨h4, _, hne⟩ := ValidatePermission_ok s h
  constructor
  · rw [BuildPermission_hierarchy s h]
    intro x hx
    simp only [List.mem_singleton] at hx
    subst hx
    intro e
    apply hne
    rw [← e, List.getD_eq_getElem _ _ (by omega)]
    exact List.getElem_mem _
  · intro x hx e
    have hx2 : x ∈ Split (Join ((Split s).drop 3)) := hx
    rw [Split_Join_drop_Split s 3 (by omega)] at hx2
    exact hne (e ▸ List.mem_of_mem_drop hx2)

theorem C7_segments_nonempty_when_valid_witness :
    ValidatePermission "RO::Act::Svc::a::b".toList = (true, none) ∧
    (∀ x ∈ (BuildPermission "RO::Act::Svc::a::b".toList).1.ResourceHierarchy.Hierarchy,
      x ≠ []) ∧
    (∀ x ∈ (BuildResourceHierarchy
      (Join ((Split "RO::Act::Svc::a::b".toList).drop 3))).Hierarchy, x ≠ []) :=
  ⟨by decide, C7_segments_nonempty_when_valid "RO::Act::Svc::a::b".toList (by decide)⟩

/-- C8: when `BuildPermission` succeeds on a string and returns p, the
canonical string OwnershipLevel + "::" + Action + "::" + Service + "::" +
(Hierarchy joined with "::") of p is parsed by `BuildPermission` without error
into a Permission equal to p. -/
theorem C8_round_trip (s : Str) (h : (BuildPermission s).2 = none) :
    BuildPermission
      ((BuildPermission s).1.OwnershipLevel ++ sep ++ (BuildPermission s).1.Action ++ sep ++
        (BuildPermission s).1.Service ++ sep ++
        Join (BuildPermission s).1.ResourceHierarchy.Hierarchy)
      = ((BuildPermission s).1, none) := by
  have hv := ValidatePermission_of_BuildPermission s h
  obtain ⟨h4, hol, hne⟩ := ValidatePermission_ok s hv
  have hrh := BuildPermission_hierarchy s hv
  have ht := Split_Join_take_Split s 3
  rw [BuildPermission_of_valid s hv] at hrh ⊢
  simp only at hrh
  simp only [hrh]
  match hs : Split s, h4 with
  | p0 :: p1 :: p2 :: p3 :: rest, _ =>
    rw [hs] at ht hol hne
    have hj : Join (List.take (3 + 1) (p0 :: p1 :: p2 :: p3 :: rest))
        = p0 ++ sep ++ p1 ++ sep ++ p2 ++ sep ++ p3 := by
      simp [Join, List.append_assoc]
    rw [hj] at ht
    simp only [List.take_succ_cons, List.take_zero] at ht
    simp only [List.getD_cons_zero, List.getD_cons_succ, Join]
    have hv2 : ValidatePermission (p0 ++ sep ++ p1 ++ sep ++ p2 ++ sep ++ p3)
        = (true, none) := by
      apply ValidatePermission_of_parts
      · rw [ht]; simp
      · rw [ht]
        intro hm
        apply hne
        simp only [List.mem_cons] at hm ⊢
        tauto
      · rw [ht]; simpa using hol
    rw [BuildPermission_of_valid _ hv2, ht]
    have hp3 : Split p3 = [p3] := Split_part s p3 (by rw [hs]; simp)
    simp [BuildResourceHierarchy, hp3]

theorem C8_round_trip_witness :
    (BuildPermission "RL::Act::Svc::a::b".toList).2 = none ∧
    BuildPermission
      ((BuildPermission "RL::Act::Svc::a::b".toList).1.OwnershipLevel ++ sep ++
        (BuildPermission "RL::Act::Svc::a::b".toList).1.Action ++ sep ++
        (BuildPermission "RL::Act::Svc::a::b".toList).1.Service ++ sep ++
        Join (BuildPermission "RL::Act::Svc::a::b".toList).1.ResourceHierarchy.Hierarchy)
      = ((BuildPermission "RL::Act::Svc::a::b".toList).1, none) :=
  ⟨by decide, C8_round_trip "RL::Act::Svc::a::b".toList (by decide)⟩

/-- C9: when the prefix ends with "::", has at most three "::"-parts and no
entry's Prefix ends with "::*", `maybeAddStarPermissions` returns the entry
with Prefix prefix+"*", Complete = (number of parts >= 3), no alias and
Lender = Owner = false, followed by the entries in their order; in every other
case it returns the entries unchanged. -/
theorem C9_maybeAddStarPermissions (pfx : Str) (ams : List AM) :
    ((sep <:+ pfx ∧ (Split pfx).length ≤ 3 ∧ ∀ a ∈ ams, ¬ "::*".toList <:+ a.Prefix) →
      maybeAddStarPermissions pfx ams =
        { Prefix := pfx ++ "*".toList, Alias := [],
          Complete := decide (3 ≤ (Split pfx).length),
          Lender := false, Owner := false } :: ams) ∧
    (¬ (sep <:+ pfx ∧ (Split pfx).length ≤ 3 ∧ ∀ a ∈ ams, ¬ "::*".toList <:+ a.Prefix) →
      maybeAddStarPermissions pfx ams = ams) := by
  have hsuf := HasSuffix_iff pfx sep
  have hstar := hasStarEntry_iff ams
  constructor
  · rintro ⟨h1, h2, h3⟩
    have e1 : HasSuffix pfx sep = true := hsuf.mpr h1
    have e2 : hasStarEntry ams = false := by
      cases hb : hasStarEntry ams with
      | false => rfl
      | true =>
        obtain ⟨a, ha, hs⟩ := hstar.mp hb
        exact absurd hs (h3 a ha)
    have e3 : ¬ (Split pfx).length > 3 := by omega
    simp [maybeAddStarPermissions, e1, e2, e3]
  · intro hn
    unfold maybeAddStarPermissions
    by_cases e1 : HasSuffix pfx sep = true
    · by_cases e3 : (Split pfx).length > 3
      · simp [e1, e3]
      · by_cases e2 : hasStarEntry ams = true
        · simp [e1, e2]
        · exfalso
          apply hn
          refine ⟨hsuf.mp e1, by omega, ?_⟩
          intro a ha hs
          exact e2 (hstar.mpr ⟨a, ha, hs⟩)
    · simp [e1]

theorem C9_maybeAddStarPermissions_witness :
    maybeAddStarPermissions "svc::Act::".toList
        [{ Prefix := "svc::Act::x".toList, Alias := [], Complete := true,
           Lender := false, Owner := false }]
      = [{ Prefix := "svc::Act::*".toList, Alias := [], Complete := true,
           Lender := false, Owner := false },
         { Prefix := "svc::Act::x".toList, Alias := [], Complete := true,
           Lender := false, Owner := false }] ∧
    maybeAddStarPermissions "svc::Act::".toList
        [{ Prefix := "svc::Act::*".toList, Alias := [], Complete := true,
           Lender := false, Owner := false }]
      = [{ Prefix := "svc::Act::*".toList, Alias := [], Complete := true,
           Lender := false, Owner := false }] :=
  ⟨(C9_maybeAddStarPermissions "svc::Act::".toList _).1 (by decide),
   (C9_maybeAddStarPermissions "svc::Act::".toList _).2 (by decide)⟩

/-- C10, as stated, fails. With self-namespace name "Will.IAM", no registered
service, no role and a Holdings Checker that succeeds, the listing of
"Will.IAM::EditRole::" is not the single wildcard entry with Complete=false:
the synthesized wildcard has Complete=true, and `List` returns an error. -/
theorem C10_wildcard_listing_counterexample :
    (emptyEnv "Will.IAM".toList [false, false]).rolesWithNamePrefix [] 10 = ([], none) ∧
    maybeAddStarPermissions ("Will.IAM".toList ++ "::EditRole::".toList) []
      = [{ Prefix := "Will.IAM::EditRole::*".toList, Alias := [], Complete := true,
           Lender := false, Owner := false }] ∧
    amList (emptyEnv "Will.IAM".toList [false, false]) "sa".toList
        ("Will.IAM".toList ++ "::EditRole::".toList)
      = some ([], some Err.ownershipLevel) ∧
    amList (emptyEnv "Will.IAM".toList [false, false]) "sa".toList
        ("Will.IAM".toList ++ "::EditRole::".toList)
      ≠ some ([{ Prefix := "Will.IAM::EditRole::*".toList, Alias := [], Complete := false,
                 Lender := false, Owner := false }], none) := by
  decide

/-- C10, amended: when the self-namespace name holds no colon and the role
lookup returns no roles, the resolver returns no entry for self +
"::EditRole::", wildcard synthesis turns that into exactly one entry, with
Prefix self + "::EditRole::*" and Complete=true (the prefix has three
"::"-parts, the last one empty), and whenever `List` returns without error it
returns exactly that entry, with Lender and Owner as reported by the
Holdings Checker: the checker was sent the derived Lender and Owner
permissions of the wildcard, answered h without error, and the entry has
Lender = h[0] and Owner = h[1]. Conversely, when the wildcard's derived
permissions validate and the checker answers h with at least two values,
`List` returns that entry with Lender = h[0] and Owner = h[1]. -/
theorem C10_wildcard_listing (env : Env) (saID : Str)
    (hname : ':' ∉ env.appName)
    (hroles : env.rolesWithNamePrefix [] 10 = ([], none)) :
    listPermissions env (env.appName ++ "::EditRole::".toList) = some ([], none) ∧
    maybeAddStarPermissions (env.appName ++ "::EditRole::".toList) []
      = [{ Prefix := env.appName ++ "::EditRole::".toList ++ "*".toList, Alias := [],
           Complete := true, Lender := false, Owner := false }] ∧
    (∀ res, amList env saID (env.appName ++ "::EditRole::".toList) = some (res, none) →
      ∃ h l o,
        env.hasPermissions saID
          [(buildLenderAndOwnerPermissions
              (env.appName ++ "::EditRole::".toList ++ "*".toList)).1,
           (buildLenderAndOwnerPermissions
              (env.appName ++ "::EditRole::".toList ++ "*".toList)).2.1] = (h, none) ∧
        h[0]? = some l ∧ h[1]? = some o ∧
        res = [{ Prefix := env.appName ++ "::EditRole::".toList ++ "*".toList,
                 Alias := [], Complete := true, Lender := l, Owner := o }]) ∧
    (∀ h l o,
      (buildLenderAndOwnerPermissions
        (env.appName ++ "::EditRole::".toList ++ "*".toList)).2.2 = none →
      env.hasPermissions saID
        [(buildLenderAndOwnerPermissions
            (env.appName ++ "::EditRole::".toList ++ "*".toList)).1,
         (buildLenderAndOwnerPermissions
            (env.appName ++ "::EditRole::".toList ++ "*".toList)).2.1] = (h, none) →
      h[0]? = some l → h[1]? = some o →
      amList env saID (env.appName ++ "::EditRole::".toList)
        = some ([{ Prefix := env.appName ++ "::EditRole::".toList ++ "*".toList,
                   Alias := [], Complete := true, Lender := l, Owner := o }], none)) := by
  have hpfx : env.appName ++ "::EditRole::".toList
      = env.appName ++ sep ++ "EditRole::".toList := by
    simp [sep]
  have hsplit : Split (env.appName ++ "::EditRole::".toList)
      = [env.appName, "EditRole".toList, []] := by
    rw [hpfx, Split_append_sep _ _ hname]
    have : Split "EditRole::".toList = ["EditRole".toList, []] := by decide
    rw [this]
  have hcont : Contains (env.appName ++ "::EditRole::".toList) sep = true := by
    cases hc : Contains (env.appName ++ "::EditRole::".toList) sep with
    | true => rfl
    | false =>
      have := (Split_length_eq_one_iff _).mpr hc
      rw [hsplit] at this
      simp at this
  have hlist : listPermissions env (env.appName ++ "::EditRole::".toList)
      = some ([], none) := by
    have hact : actionsContains RolesActions "EditRole".toList = true := by decide
    have hne : ¬ ("EditRole".toList = "CreateRoles".toList ∨
        "EditRole".toList = "ListRoles".toList) := by decide
    simp only [listPermissions, hcont, Bool.not_true, hsplit, List.getD_cons_zero,
      if_true, listWillIAMPermissions, List.length_cons, List.length_nil,
      List.getElem?_cons_zero, List.getElem?_cons_succ,
      listWillIAMResourceHierarchies, hact, listRolesActionsRH, hne, if_false, hroles,
      List.map_nil]
    rfl
  have hsuf : HasSuffix (env.appName ++ "::EditRole::".toList) sep = true := by
    rw [HasSuffix_iff]
    exact ⟨env.appName ++ "::EditRole".toList, by simp [sep]⟩
  have hstar : maybeAddStarPermissions (env.appName ++ "::EditRole::".toList) []
      = [{ Prefix := env.appName ++ "::EditRole::".toList ++ "*".toList, Alias := [],
           Complete := true, Lender := false, Owner := false }] := by
    simp only [maybeAddStarPermissions, hsuf, hsplit, hasStarEntry, List.length_cons,
      List.length_nil]
    rfl
  refine ⟨hlist, hstar, ?_, ?_⟩
  · intro res hres
    simp only [amList, hlist, hstar, collectComplete, if_true] at hres
    split at hres
    · simp at hres
    · rename_i ps is hcol
      split at hcol
      · simp at hcol
      · rename_i lender owner hb
        simp only [List.nil_append, Prod.mk.injEq, and_true] at hcol
        obtain ⟨hps, his⟩ := hcol
        subst his
        split at hres
        · simp at hres
        · rename_i hasSl hh
          simp only [annotateHoldings, List.getElem?_cons_zero] at hres
          cases h0 : hasSl[2 * 0]? with
          | none => simp only [h0] at hres; simp at hres
          | some l =>
            cases h1 : hasSl[2 * 0 + 1]? with
            | none => simp only [h0, h1] at hres; simp at hres
            | some o =>
              simp only [h0, h1, List.set_cons_zero, Option.some.injEq, Prod.mk.injEq,
                and_true] at hres
              refine ⟨hasSl, l, o, ?_, h0, h1, hres.symm⟩
              rw [hb, hps]
              exact hh
  · intro h l o hval hh h0 h1
    rcases hbv : buildLenderAndOwnerPermissions
        (env.appName ++ "::EditRole::".toList ++ "*".toList) with ⟨lender, owner, e⟩
    rw [hbv] at hval hh
    simp only at hval hh
    subst hval
    have hcol : collectComplete
        [{ Prefix := env.appName ++ "::EditRole::".toList ++ "*".toList, Alias := [],
           Complete := true, Lender := false, Owner := false }] 0 [] []
        = (([lender, owner], [0]), none) := by
      simp only [collectComplete, if_true, hbv]
      rfl
    have h0' : h[2 * 0]? = some l := h0
    have h1' : h[2 * 0 + 1]? = some o := h1
    simp only [amList, hlist, hstar, hcol, hh, annotateHoldings, List.getElem?_cons_zero,
      h0', h1', List.set_cons_zero]

theorem C10_wildcard_listing_witness :
    amList (emptyEnv "RO".toList [true, false]) "sa".toList
        ("RO".toList ++ "::EditRole::".toList)
      = some ([{ Prefix := "RO::EditRole::*".toList, Alias := [], Complete := true,
                 Lender := true, Owner := false }], none) ∧
    ∀ res, amList (emptyEnv "RO".toList [true, false]) "sa".toList
        ("RO".toList ++ "::EditRole::".toList) = some (res, none) →
      ∃ h l o,
        (emptyEnv "RO".toList [true, false]).hasPermissions "sa".toList
          [(buildLenderAndOwnerPermissions
              ("RO".toList ++ "::EditRole::".toList ++ "*".toList)).1,
           (buildLenderAndOwnerPermissions
              ("RO".toList ++ "::EditRole::".toList ++ "*".toList)).2.1] = (h, none) ∧
        h[0]? = some l ∧ h[1]? = some o ∧
        res = [{ Prefix := "RO".toList ++ "::EditRole::".toList ++ "*".toList,
                 Alias := [], Complete := true, Lender := l, Owner := o }] :=
  ⟨(C10_wildcard_listing (emptyEnv "RO".toList [true, false]) "sa".toList
      (by decide) rfl).2.2.2 [true, false] true false (by decide) rfl rfl rfl,
   (C10_wildcard_listing (emptyEnv "RO".toList [true, false]) "sa".toList
      (by decide) rfl).2.2.1⟩

/-! ## Further facts about strings -/

/-- The first part of a non-empty string is empty when the string starts with
the separator, and starts with the string's first character otherwise. -/
theorem Split_first_char (d : Char) (r p : Str) (tl : List Str)
    (h : Split (d :: r) = p :: tl) : (p ++ sep ++ []).head? = some d ∧
      ∀ u, (p ++ sep ++ u).head? = some d := by
  have key : (p = [] ∧ d = ':') ∨ ∃ q, p = d :: q := by
    cases r with
    | nil =>
      simp only [Split, List.cons.injEq] at h
      exact Or.inr ⟨[], h.1.symm⟩
    | cons e r =>
      by_cases hc : d = ':' ∧ e = ':'
      · simp only [Split, hc, and_self, if_true, List.cons.injEq] at h
        exact Or.inl ⟨h.1.symm, hc.1⟩
      · simp only [Split, hc, if_false] at h
        cases hs : Split (e :: r) with
        | nil => exact absurd hs (Split_ne_nil _)
        | cons a as =>
          rw [hs] at h
          simp only [pushFront, List.cons.injEq] at h
          exact Or.inr ⟨a, h.1.symm⟩
  rcases key with ⟨hp, hd⟩ | ⟨q, hq⟩
  · subst hp; subst hd
    exact ⟨by simp [sep], fun u => by simp [sep]⟩
  · subst hq
    exact ⟨by simp, fun u => by simp⟩

/-- A part that is followed by a separator in its string is split off whole
in front of any other text. -/
theorem Split_head_clean (s a b : Str) (rest : List Str) (h : Split s = a :: b :: rest)
    (u : Str) : Split (a ++ sep ++ u) = a :: Split u := by
  induction s using Split.induct generalizing a with
  | case1 => simp [Split] at h
  | case2 c => simp [Split] at h
  | case3 c d r hc ih =>
    simp only [Split, hc, and_self, if_true, List.cons.injEq] at h
    rw [← h.1]
    simp [sep, Split]
  | case4 c d r hc ih =>
    simp only [Split, hc, if_false] at h
    cases hs : Split (d :: r) with
    | nil => exact absurd hs (Split_ne_nil _)
    | cons a1 tl =>
      rw [hs] at h
      simp only [pushFront, List.cons.injEq] at h
      obtain ⟨ha, htl⟩ := h
      subst ha
      have ih1 := ih a1 (by rw [hs, htl])
      have hfirst := (Split_first_char d r a1 tl hs).2 u
      have hne : ¬ (c = ':' ∧ (a1 ++ sep ++ u).head? = some ':') := by
        rintro ⟨h1, h2⟩
        rw [hfirst] at h2
        exact hc ⟨h1, by simpa using h2⟩
      have := Split_cons c (a1 ++ sep ++ u) hne
      simp only [List.cons_append] at this ⊢
      rw [this, ih1, pushFront]

/-- A string with a single part, followed by a separator and a level token
that neither holds nor starts with a colon, has two parts. -/
theorem Split_single_append_level (p l : Str) (hp : (Split p).length = 1)
    (h1 : Split l = [l]) (h2 : Split (':' :: l) = [':' :: l]) :
    (Split (p ++ sep ++ l)).length = 2 := by
  induction p using Split.induct with
  | case1 => simp [sep, Split, h1]
  | case2 c =>
    by_cases hc : c = ':'
    · subst hc
      simp [sep, Split, h2]
    · have := Split_cons c (sep ++ l) (fun e => hc e.1)
      have e : [c] ++ sep ++ l = c :: (sep ++ l) := by simp
      rw [e, this]
      simp [sep, Split, h1, pushFront]
  | case3 c d r hc ih =>
    have := Split_ne_nil r
    simp only [Split, hc, and_self, if_true, List.length_cons] at hp
    have := Split_length_pos r
    omega
  | case4 c d r hc ih =>
    simp only [Split, hc, if_false] at hp
    rw [pushFront_length _ _ (Split_ne_nil _)] at hp
    have e : c :: d :: r ++ sep ++ l = c :: d :: (r ++ sep ++ l) := by simp
    have e2 : d :: r ++ sep ++ l = d :: (r ++ sep ++ l) := by simp
    rw [e]
    simp only [Split, hc, if_false]
    rw [pushFront_length _ _ (Split_ne_nil _), ← e2]
    exact ih hp

/-- The embedded `strings.HasPrefix` decides "starts with". -/
theorem HasPrefix_iff (s p : Str) : HasPrefix s p = true ↔ p <+: s := by
  simp only [HasPrefix, Bool.and_eq_true, decide_eq_true_eq, beq_iff_eq]
  constructor
  · rintro ⟨_, h⟩
    exact List.prefix_iff_eq_take.mpr h.symm
  · intro h
    exact ⟨h.length_le, (List.prefix_iff_eq_take.mp h).symm⟩

/-- Every string starts with the empty string. -/
theorem HasPrefix_nil (s : Str) : HasPrefix s [] = true := by
  simp [HasPrefix]

/-- A string that ends with a text contains it. -/
theorem Contains_of_suffix (s x : Str) (h : x <:+ s) : Contains s x = true := by
  induction s with
  | nil =>
    have : x = [] := List.suffix_nil.mp h
    subst this
    simp [Contains, HasPrefix]
  | cons c t ih =>
    rcases List.suffix_cons_iff.mp h with e | e
    · subst e
      simp [Contains, HasPrefix]
    · rw [Contains, ih e, Bool.or_true]

/-- A string without separator does not end with the separator. -/
theorem HasSuffix_sep_of_not_Contains (s : Str) (h : Contains s sep = false) :
    HasSuffix s sep = false := by
  cases hb : HasSuffix s sep with
  | false => rfl
  | true =>
    have := Contains_of_suffix s sep ((HasSuffix_iff _ _).mp hb)
    rw [h] at this
    exact absurd this (by simp)

/-- A string without separator is its own single part. -/
theorem Split_of_not_Contains (s : Str) (h : Contains s sep = false) : Split s = [s] := by
  have h1 := (Split_length_eq_one_iff s).mpr h
  have hj := Join_Split s
  match hs : Split s, h1 with
  | [x], _ =>
    rw [hs] at hj
    simp only [Join] at hj
    rw [hj]

/-- A string with at least two parts contains the separator. -/
theorem Contains_of_two_parts (s : Str) (h : 2 ≤ (Split s).length) :
    Contains s sep = true := by
  cases hc : Contains s sep with
  | true => rfl
  | false =>
    have := (Split_length_eq_one_iff s).mpr hc
    omega

/-! ## Further facts about the listing engine -/

/-- A prefix whose first part is not an ownership level: the derived
permission string of either level is rejected. -/
theorem buildLevel_error (pfx l : Str)
    (hl : l = OwnershipLevels.Lender ∨ l = OwnershipLevels.Owner)
    (hO : (Split pfx).head? ≠ some OwnershipLevels.Owner)
    (hL : (Split pfx).head? ≠ some OwnershipLevels.Lender) :
    ∃ e, buildLevel (Split pfx) l = (zeroPermission, some e) := by
  have hl1 : Split l = [l] := by rcases hl with e | e <;> subst e <;> decide
  have hl2 : Split (':' :: l) = [':' :: l] := by rcases hl with e | e <;> subst e <;> decide
  have hv : ∃ e, ValidatePermission (Join ((Split pfx).getD 0 [] :: l :: (Split pfx).drop 1))
      = (false, some e) := by
    match hs : Split pfx with
    | [] => exact absurd hs (Split_ne_nil _)
    | [p0] =>
      have hp0 : (Split p0).length = 1 := by
        rw [Split_part pfx p0 (by rw [hs]; simp)]; rfl
      have h2 := Split_single_append_level p0 l hp0 hl1 hl2
      rw [ValidatePermission_eq]
      simp only [List.getD_cons_zero, List.drop_succ_cons, List.drop_nil, Join]
      rw [if_pos (by omega)]
      exact ⟨_, rfl⟩
    | p0 :: p1 :: rest =>
      have hc := Split_head_clean pfx p0 p1 rest hs (Join (l :: p1 :: rest))
      rw [hs] at hO hL
      rw [ValidatePermission_eq]
      simp only [List.getD_cons_zero, List.drop_succ_cons, List.drop_zero, Join] at hc ⊢
      simp only [hc, List.head?_cons] at hO hL ⊢
      split_ifs with h4 hol
      · exact ⟨_, rfl⟩
      · exact ⟨_, rfl⟩
      · exact absurd ⟨hO, hL⟩ hol
      · exact absurd ⟨hO, hL⟩ hol
  obtain ⟨e, hv⟩ := hv
  exact ⟨e, BuildPermission_of_invalid _ e hv⟩

/-- A prefix whose first part is not an ownership level has no derived
Lender and Owner permissions. -/
theorem buildLenderAndOwnerPermissions_error (pfx : Str)
    (hO : (Split pfx).head? ≠ some OwnershipLevels.Owner)
    (hL : (Split pfx).head? ≠ some OwnershipLevels.Lender) :
    ∃ e, buildLenderAndOwnerPermissions pfx = (zeroPermission, zeroPermission, some e) := by
  obtain ⟨e, he⟩ := buildLevel_error pfx OwnershipLevels.Lender (Or.inl rfl) hO hL
  exact ⟨e, by simp [buildLenderAndOwnerPermissions, he]⟩

/-- The first loop stops with an error when some Complete entry has no
derived permissions. -/
theorem collectComplete_error (l : List AM) (i : Nat) (ps : List Permission) (is : List Nat)
    (h : ∃ a ∈ l, a.Complete = true ∧ (buildLenderAndOwnerPermissions a.Prefix).2.2 ≠ none) :
    ∃ e, collectComplete l i ps is = (([], []), some e) := by
  induction l generalizing i ps is with
  | nil => obtain ⟨a, ha, _⟩ := h; simp at ha
  | cons b rest ih =>
    obtain ⟨a, ha, hc, hb⟩ := h
    by_cases hbc : b.Complete = true
    · simp only [collectComplete, hbc, if_true]
      split
      · exact ⟨_, rfl⟩
      · rename_i lender owner hbuild
        rcases List.mem_cons.mp ha with e | e
        · subst e
          rw [hbuild] at hb
          exact absurd rfl hb
        · exact ih _ _ _ ⟨a, e, hc, hb⟩
    · simp only [collectComplete, hbc]
      rcases List.mem_cons.mp ha with e | e
      · subst e
        exact absurd hc hbc
      · exact ih _ _ _ ⟨a, e, hc, hb⟩

/-- The first loop, when every Complete entry has derived permissions,
appends the specified batch and the positions of the Complete entries. -/
theorem collectComplete_ok (l : List AM) (i : Nat) (ps : List Permission) (is : List Nat)
    (h : ∀ a ∈ l, a.Complete = true → (buildLenderAndOwnerPermissions a.Prefix).2.2 = none) :
    collectComplete l i ps is
      = ((ps ++ specHoldingsBatch l, is ++ completeIndices l i), none) := by
  induction l generalizing i ps is with
  | nil => simp [collectComplete, specHoldingsBatch, completeIndices]
  | cons b rest ih =>
    have hrest : ∀ a ∈ rest, a.Complete = true →
        (buildLenderAndOwnerPermissions a.Prefix).2.2 = none :=
      fun a ha => h a (List.mem_cons_of_mem _ ha)
    by_cases hbc : b.Complete = true
    · have hb := h b (List.mem_cons_self _ _) hbc
      simp only [collectComplete, hbc, if_true, specHoldingsBatch, completeIndices]
      split
      · rename_i e hbuild
        rw [hbuild] at hb
        simp at hb
      · rename_i lender owner hbuild
        rw [ih _ _ _ hrest, hbuild]
        simp
    · simp only [collectComplete, hbc, specHoldingsBatch, completeIndices]
      exact ih _ _ _ hrest

/-- The first loop returns no permissions and no positions with an error. -/
theorem collectComplete_error_nil (l : List AM) (i : Nat) (ps : List Permission)
    (is : List Nat) (r : List Permission × List Nat) (e : Err)
    (h : collectComplete l i ps is = (r, some e)) : r = ([], []) := by
  induction l generalizing i ps is with
  | nil => simp [collectComplete] at h
  | cons b rest ih =>
    by_cases hbc : b.Complete = true
    · simp only [collectComplete, hbc, if_true] at h
      split at h
      · simp only [Prod.mk.injEq] at h
        exact h.1.symm
      · exact ih _ _ _ h
    · simp only [collectComplete, hbc] at h
      exact ih _ _ _ h

theorem specHoldingsBatch_length (l : List AM) :
    (specHoldingsBatch l).length = 2 * countComplete l := by
  induction l with
  | nil => simp [specHoldingsBatch, countComplete]
  | cons b rest ih =>
    by_cases hbc : b.Complete = true
    · simp only [specHoldingsBatch, countComplete, hbc, if_true, List.length_cons, ih]
      omega
    · have hf : b.Complete = false := by simpa using hbc
      simp [specHoldingsBatch, countComplete, hf, ih]

/-- The second loop, run over the positions of the Complete entries with
enough answers, produces the specified annotation. -/
theorem annotateHoldings_eq (h : List Bool) (l pre : List AM) (k : Nat)
    (hlen : 2 * (k + countComplete l) ≤ h.length) :
    annotateHoldings h (completeIndices l pre.length) k (pre ++ l)
      = some (pre ++ specAnnotate h k l) := by
  induction l generalizing pre k with
  | nil => simp [completeIndices, annotateHoldings, specAnnotate]
  | cons b rest ih =>
    by_cases hbc : b.Complete = true
    · have hcnt : countComplete (b :: rest) = countComplete rest + 1 := by
        rw [countComplete, if_pos hbc]
      rw [hcnt] at hlen
      have h0 : h[2 * k]? = some (h.getD (2 * k) false) := by
        rw [List.getD_eq_getElem _ _ (by omega), List.getElem?_eq_getElem]
      have h1 : h[2 * k + 1]? = some (h.getD (2 * k + 1) false) := by
        rw [List.getD_eq_getElem _ _ (by omega), List.getElem?_eq_getElem]
      have hb : (pre ++ b :: rest)[pre.length]? = some b := by
        rw [List.getElem?_append_right (le_refl _)]; simp
      have hset : (pre ++ b :: rest).set pre.length
          { b with Lender := h.getD (2 * k) false, Owner := h.getD (2 * k + 1) false }
          = (pre ++ [{ b with Lender := h.getD (2 * k) false,
                              Owner := h.getD (2 * k + 1) false }]) ++ rest := by
        simp
      have hidx : pre.length + 1
          = (pre ++ [{ b with Lender := h.getD (2 * k) false,
                              Owner := h.getD (2 * k + 1) false }]).length := by
        simp
      rw [completeIndices, if_pos hbc, specAnnotate, if_pos hbc]
      simp only [annotateHoldings, hb, h0, h1]
      rw [hset, hidx, ih _ (k + 1) (by omega)]
      simp
    · have hcnt : countComplete (b :: rest) = countComplete rest := by
        rw [countComplete, if_neg hbc]
      rw [hcnt] at hlen
      have hidx : pre.length + 1 = (pre ++ [b]).length := by simp
      have happ : pre ++ b :: rest = (pre ++ [b]) ++ rest := by simp
      rw [completeIndices, if_neg hbc, specAnnotate, if_neg hbc, happ, hidx, ih _ k hlen]
      simp

/-- What `List` returns once the resolver has returned entries, every
Complete entry has derived permissions, and the Holdings Checker has given
as many answers as it was sent permissions. -/
theorem amList_of_resolved (env : Env) (saID pfx : Str) (ams0 : List AM) (h : List Bool)
    (hres : listPermissions env pfx = some (ams0, none))
    (hval : ∀ a ∈ maybeAddStarPermissions pfx ams0, a.Complete = true →
      (buildLenderAndOwnerPermissions a.Prefix).2.2 = none)
    (hh : env.hasPermissions saID (specHoldingsBatch (maybeAddStarPermissions pfx ams0))
      = (h, none))
    (hlen : h.length = (specHoldingsBatch (maybeAddStarPermissions pfx ams0)).length) :
    amList env saID pfx
      = some (specAnnotate h 0 (maybeAddStarPermissions pfx ams0), none) := by
  have hc := collectComplete_ok (maybeAddStarPermissions pfx ams0) 0 [] [] hval
  have ha := annotateHoldings_eq h (maybeAddStarPermissions pfx ams0) [] 0
    (by rw [hlen, specHoldingsBatch_length]; omega)
  simp only [List.nil_append, List.length_nil] at hc ha
  simp only [amList, hres, hc, hh, ha]

/-- A failing resolver makes `List` return that error and no entry. -/
theorem amList_of_resolver_error (env : Env) (saID pfx : Str) (x : List AM) (e : Err)
    (hres : listPermissions env pfx = some (x, some e)) :
    amList env saID pfx = some ([], some e) := by
  simp only [amList, hres]

/-- A Complete entry without derived permissions makes `List` return an
error and no entry. -/
theorem amList_of_derivation_error (env : Env) (saID pfx : Str) (ams0 : List AM)
    (hres : listPermissions env pfx = some (ams0, none))
    (hbad : ∃ a ∈ maybeAddStarPermissions pfx ams0, a.Complete = true ∧
      (buildLenderAndOwnerPermissions a.Prefix).2.2 ≠ none) :
    ∃ e, amList env saID pfx = some ([], some e) := by
  obtain ⟨e, he⟩ := collectComplete_error _ 0 [] [] hbad
  exact ⟨e, by simp only [amList, hres, he]⟩

/-- Entries without a Complete one: the first loop collects nothing. -/
theorem collectComplete_none_complete (l : List AM) (i : Nat)
    (h : ∀ a ∈ l, a.Complete = false) :
    collectComplete l i [] [] = (([], []), none) := by
  induction l generalizing i with
  | nil => rfl
  | cons b rest ih =>
    have hb := h b (List.mem_cons_self _ _)
    simp only [collectComplete, hb, Bool.false_eq_true, if_false]
    exact ih _ (fun a ha => h a (List.mem_cons_of_mem _ ha))

/-- What `List` returns when no entry is Complete and the Holdings Checker,
called with an empty batch, succeeds: the entries, unchanged. -/
theorem amList_of_none_complete (env : Env) (saID pfx : Str) (ams0 : List AM)
    (x : List Bool)
    (hres : listPermissions env pfx = some (ams0, none))
    (hnc : ∀ a ∈ maybeAddStarPermissions pfx ams0, a.Complete = false)
    (hh : env.hasPermissions saID [] = (x, none)) :
    amList env saID pfx = some (maybeAddStarPermissions pfx ams0, none) := by
  have hc := collectComplete_none_complete _ 0 hnc
  simp only [amList, hres, hc, hh, annotateHoldings]

/-- Whether a string ends with a text is decided on any end of the string
that is at least as long as the text. -/
theorem HasSuffix_append (t u x : Str) (h : x.length ≤ u.length) :
    HasSuffix (t ++ u) x = HasSuffix u x := by
  have e : (t ++ u).length - x.length = t.length + (u.length - x.length) := by
    rw [List.length_append]; omega
  have hle : decide (x.length ≤ (t ++ u).length) = decide (x.length ≤ u.length) := by
    rw [List.length_append]
    simp only [h, decide_True, decide_eq_true_eq]
    omega
  simp only [HasSuffix, e, List.drop_append, hle]

/-- Under a self-namespace name without colon, a prefix that starts with the
name and a separator is resolved by the self-namespace resolver. -/
theorem listPermissions_self (env : Env) (t : Str) (hname : ':' ∉ env.appName) :
    listPermissions env (env.appName ++ sep ++ t)
      = listWillIAMPermissions env (env.appName ++ sep ++ t) := by
  have hs := Split_append_sep env.appName t hname
  have hc : Contains (env.appName ++ sep ++ t) sep = true := by
    apply Contains_of_two_parts
    rw [hs]
    have := Split_length_pos t
    simp only [List.length_cons]
    omega
  simp only [listPermissions, hc, Bool.not_true, hs, List.getD_cons_zero, if_true]
  rfl

/-- The self-namespace resolver on a prefix of two parts lists the catalog
actions that start with the second part. -/
theorem listWillIAMPermissions_actions (env : Env) (ap : Str)
    (hname : ':' ∉ env.appName) (hap : Contains ap sep = false) :
    listWillIAMPermissions env (env.appName ++ sep ++ ap)
      = some ((((RolesActions ++ ServiceAccountsActions) ++ ServicesActions).filter
          (fun a => HasPrefix a ap)).map (fun a =>
            { Prefix := env.appName ++ sep ++ a, Alias := [], Complete := false,
              Lender := false, Owner := false }), none) := by
  have hs := Split_append_sep env.appName ap hname
  rw [Split_of_not_Contains ap hap] at hs
  simp only [listWillIAMPermissions, hs, List.length_cons, List.length_nil,
    List.getElem?_cons_zero, List.getElem?_cons_succ, listWillIAMActions]
  rfl

/-- The self-namespace resolver on a prefix of three or more parts asks the
resource resolver with the second part as action and the third part as
resource prefix, and puts the first two parts in front of every entry. -/
theorem listWillIAMPermissions_resource (env : Env) (action rp : Str)
    (hname : ':' ∉ env.appName) (hact : ':' ∉ action) :
    listWillIAMPermissions env (env.appName ++ sep ++ (action ++ sep ++ rp))
      = match listWillIAMResourceHierarchies env action ((Split rp).getD 0 []) with
        | (_, some e) => some ([], some e)
        | (ams, none) =>
          some (ams.map (fun a =>
            { a with Prefix := env.appName ++ sep ++ action ++ sep ++ a.Prefix }), none) := by
  have hs := Split_append_sep env.appName (action ++ sep ++ rp) hname
  rw [Split_append_sep action rp hact] at hs
  cases hr : Split rp with
  | nil => exact absurd hr (Split_ne_nil _)
  | cons p0 tl =>
    rw [hr] at hs
    have hlen : ¬ ((env.appName :: action :: p0 :: tl).length = 2) := by
      simp only [List.length_cons]; omega
    simp only [listWillIAMPermissions, hs, hlen, if_false, List.getElem?_cons_zero,
      List.getElem?_cons_succ, List.getD_cons_zero]

/-- The role resolver under the action EditRole: the role lookup is asked
with the resource prefix and limit 10, and every role becomes a Complete
entry. -/
theorem listWillIAMResourceHierarchies_EditRole (env : Env) (rp : Str) :
    listWillIAMResourceHierarchies env "EditRole".toList rp
      = match env.rolesWithNamePrefix rp 10 with
        | (_, some e) => ([], some e)
        | (rs, none) =>
          (rs.map (fun r =>
            { Prefix := r.ID, Alias := r.Name, Complete := true,
              Lender := false, Owner := false }), none) := by
  have hact : actionsContains RolesActions "EditRole".toList = true := by decide
  have hne : ¬ ("EditRole".toList = "CreateRoles".toList ∨
      "EditRole".toList = "ListRoles".toList) := by decide
  simp only [listWillIAMResourceHierarchies, hact, if_true, listRolesActionsRH, hne, if_false]

theorem specAnnotate_length (h : List Bool) (k : Nat) (l : List AM) :
    (specAnnotate h k l).length = l.length := by
  induction l generalizing k with
  | nil => rfl
  | cons b rest ih =>
    by_cases hbc : b.Complete = true
    · rw [specAnnotate, if_pos hbc, List.length_cons, List.length_cons, ih]
    · rw [specAnnotate, if_neg hbc, List.length_cons, List.length_cons, ih]

/-- The entry at a position of the specified annotation: a Complete entry
preceded by `n` Complete entries reads the answers `2(k+n)` and `2(k+n)+1`. -/
theorem specAnnotate_getElem? (h : List Bool) (k : Nat) (l : List AM) (i : Nat) (a : AM)
    (ha : l[i]? = some a) :
    (specAnnotate h k l)[i]? = some
      (if a.Complete then
        { a with Lender := h.getD (2 * (k + countComplete (l.take i))) false,
                 Owner := h.getD (2 * (k + countComplete (l.take i)) + 1) false }
       else a) := by
  induction l generalizing k i with
  | nil => simp at ha
  | cons b rest ih =>
    cases i with
    | zero =>
      simp only [List.getElem?_cons_zero, Option.some.injEq] at ha
      subst ha
      by_cases hbc : b.Complete = true
      · rw [specAnnotate, if_pos hbc, if_pos hbc]
        simp [countComplete]
      · rw [specAnnotate, if_neg hbc, if_neg hbc]
        simp
    | succ i =>
      simp only [List.getElem?_cons_succ] at ha
      by_cases hbc : b.Complete = true
      · have hc : countComplete ((b :: rest).take (i + 1))
            = countComplete (rest.take i) + 1 := by
          rw [List.take_succ_cons, countComplete, if_pos hbc]
        rw [specAnnotate, if_pos hbc, List.getElem?_cons_succ, ih (k + 1) i ha, hc]
        have e : k + 1 + countComplete (rest.take i)
            = k + (countComplete (rest.take i) + 1) := by omega
        rw [e]
      · have hc : countComplete ((b :: rest).take (i + 1)) = countComplete (rest.take i) := by
          rw [List.take_succ_cons, countComplete, if_neg hbc]
        rw [specAnnotate, if_neg hbc, List.getElem?_cons_succ, ih k i ha, hc]

/-- A Complete entry is counted after the Complete entries before it. -/
theorem countComplete_take_lt (l : List AM) (i : Nat) (a : AM) (ha : l[i]? = some a)
    (hc : a.Complete = true) : countComplete (l.take i) + 1 ≤ countComplete l := by
  induction l generalizing i with
  | nil => simp at ha
  | cons b rest ih =>
    cases i with
    | zero =>
      simp only [List.getElem?_cons_zero, Option.some.injEq] at ha
      subst ha
      rw [List.take_zero, countComplete, countComplete, if_pos hc]
      omega
    | succ i =>
      simp only [List.getElem?_cons_succ] at ha
      have := ih i ha
      by_cases hbc : b.Complete = true
      · rw [List.take_succ_cons, countComplete, if_pos hbc, countComplete, if_pos hbc]
        omega
      · rw [List.take_succ_cons, countComplete, if_neg hbc, countComplete, if_neg hbc]
        exact this

/-- Filtering with the embedded `strings.HasPrefix` keeps the strings that
start with the prefix. -/
theorem filter_HasPrefix (l : List Str) (p : Str) :
    l.filter (fun s => HasPrefix s p) = l.filter (fun s => decide (p <+: s)) := by
  apply List.filter_congr
  intro s _
  cases hb : HasPrefix s p with
  | true => exact (decide_eq_true ((HasPrefix_iff s p).mp hb)).symm
  | false =>
    have : ¬ p <+: s := fun hp => by
      rw [(HasPrefix_iff s p).mpr hp] at hb
      exact absurd hb (by simp)
    exact (decide_eq_false this).symm

/-- No entry ends with "::*": the loop of wildcard synthesis runs through. -/
theorem hasStarEntry_false (ams : List AM)
    (h : ∀ a ∈ ams, HasSuffix a.Prefix "::*".toList = false) : hasStarEntry ams = false := by
  induction ams with
  | nil => rfl
  | cons a rest ih =>
    have ha := h a (List.mem_cons_self _ _)
    rw [hasStarEntry, ha]
    exact ih (fun b hb => h b (List.mem_cons_of_mem _ hb))

/-- The top-level listing: for a prefix without separator, a registry that
answers and a Holdings Checker that answers the empty batch, `List` returns
the names that start with the prefix, as non-Complete entries. -/
theorem amList_top_level (env : Env) (saID pfx : Str) (services : List Service)
    (x : List Bool) (hno : Contains pfx sep = false)
    (hreg : env.servicesList = (services, none))
    (hhold : env.hasPermissions saID [] = (x, none)) :
    amList env saID pfx
      = some (((env.appName :: services.map (fun s => s.PermissionName)).filter
          (fun n => decide (pfx <+: n))).map (fun n =>
            { Prefix := n, Alias := [], Complete := false,
              Lender := false, Owner := false }), none) := by
  have hlist : listPermissions env pfx
      = some (((env.appName :: services.map (fun s => s.PermissionName)).filter
          (fun n => decide (pfx <+: n))).map (fun n =>
            { Prefix := n, Alias := [], Complete := false,
              Lender := false, Owner := false }), none) := by
    simp only [listPermissions, hno, Bool.not_false, if_true, listServices, hreg,
      filter_HasPrefix]
  have hstar : ∀ l, maybeAddStarPermissions pfx l = l := by
    intro l
    simp only [maybeAddStarPermissions, HasSuffix_sep_of_not_Contains pfx hno,
      Bool.not_false, Bool.true_or, if_true]
  have := amList_of_none_complete env saID pfx _ x hlist
    (by
      rw [hstar]
      intro a ha
      obtain ⟨n, _, hn⟩ := List.mem_map.mp ha
      rw [← hn])
    hhold
  rw [this, hstar]

/-- An error of `List` comes with no entry. -/
theorem amList_error_nil (env : Env) (saID pfx : Str) (res : List AM) (e : Err)
    (h : amList env saID pfx = some (res, some e)) : res = [] := by
  simp only [amList] at h
  split at h
  · simp at h
  · simp only [Option.some.injEq, Prod.mk.injEq] at h
    exact h.1.symm
  · split at h
    · simp only [Option.some.injEq, Prod.mk.injEq] at h
      exact h.1.symm
    · split at h
      · simp only [Option.some.injEq, Prod.mk.injEq] at h
        exact h.1.symm
      · split at h
        · simp at h
        · simp at h

/-- A failing Holdings Checker makes `List` return that error and no entry. -/
theorem amList_of_checker_error (env : Env) (saID pfx : Str) (ams0 : List AM)
    (ps : List Permission) (is : List Nat) (x : List Bool) (e : Err)
    (hres : listPermissions env pfx = some (ams0, none))
    (hcol : collectComplete (maybeAddStarPermissions pfx ams0) 0 [] [] = ((ps, is), none))
    (hh : env.hasPermissions saID ps = (x, some e)) :
    amList env saID pfx = some ([], some e) := by
  simp only [amList, hres, hcol, hh]

/-- A failing registry listing makes the top-level resolver fail. -/
theorem listPermissions_registry_error (env : Env) (pfx : Str) (x : List Service) (e : Err)
    (hno : Contains pfx sep = false) (hreg : env.servicesList = (x, some e)) :
    listPermissions env pfx = some ([], some e) := by
  simp only [listPermissions, hno, Bool.not_false, if_true, listServices, hreg]

/-- A failing registry lookup, request, read or decoding makes the remote
resolver fail. -/
theorem listServicePermissions_error (env : Env) (seg pfx : Str) (e : Err)
    (h : (∃ x, env.servicesWithPermissionName seg = (x, some e)) ∨
      ∃ svc, env.servicesWithPermissionName seg = (svc, none) ∧
        (env.newRequest (svc.AMURL ++ "?prefix=".toList ++ Join ((Split pfx).drop 1))
            = some e ∨
         (env.newRequest (svc.AMURL ++ "?prefix=".toList ++ Join ((Split pfx).drop 1))
            = none ∧
          (env.httpDo (svc.AMURL ++ "?prefix=".toList ++ Join ((Split pfx).drop 1))
              = some e ∨
           (env.httpDo (svc.AMURL ++ "?prefix=".toList ++ Join ((Split pfx).drop 1))
              = none ∧
            ((∃ x, env.readAll (svc.AMURL ++ "?prefix=".toList ++
                Join ((Split pfx).drop 1)) = (x, some e)) ∨
             ∃ body, env.readAll (svc.AMURL ++ "?prefix=".toList ++
                Join ((Split pfx).drop 1)) = (body, none) ∧
               ∃ x, env.jsonUnmarshal body = (x, some e))))))) :
    listServicePermissions env seg pfx = ([], some e) := by
  rcases h with ⟨x, h⟩ | ⟨svc, hreg, h⟩
  · simp only [listServicePermissions, h]
  · rcases h with h | ⟨hreq, h⟩
    · simp only [listServicePermissions, hreg, h]
    · rcases h with h | ⟨hdo, h⟩
      · simp only [listServicePermissions, hreg, hreq, h]
      · rcases h with ⟨x, h⟩ | ⟨body, hread, x, h⟩
        · simp only [listServicePermissions, hreg, hreq, hdo, h]
        · simp only [listServicePermissions, hreg, hreq, hdo, hread, h]

/-- A prefix with a separator whose first part is not the self-namespace
name is resolved by the remote resolver. -/
theorem listPermissions_remote (env : Env) (pfx seg : Str) (tl : List Str)
    (hs : Split pfx = seg :: tl) (htl : tl ≠ []) (hseg : seg ≠ env.appName) :
    listPermissions env pfx = some (listServicePermissions env seg pfx) := by
  have hc : Contains pfx sep = true := by
    apply Contains_of_two_parts
    rw [hs]
    cases tl with
    | nil => exact absurd rfl htl
    | cons a as => simp only [List.length_cons]; omega
  simp only [listPermissions, hc, Bool.not_true, hs, List.getD_cons_zero, hseg, if_false]
  rfl

/-- A failing role lookup makes the self-namespace resolver fail under the
action EditRole. -/
theorem listPermissions_role_lookup_error (env : Env) (rp : Str) (x : List Role) (e : Err)
    (hname : ':' ∉ env.appName)
    (hroles : env.rolesWithNamePrefix ((Split rp).getD 0 []) 10 = (x, some e)) :
    listPermissions env (env.appName ++ sep ++ ("EditRole".toList ++ sep ++ rp))
      = some ([], some e) := by
  rw [listPermissions_self env _ hname,
    listWillIAMPermissions_resource env _ _ hname (by decide),
    listWillIAMResourceHierarchies_EditRole, hroles]

/-- Wildcard synthesis returns the entries when the prefix does not end with
the separator or has more than three parts. -/
theorem maybeAddStarPermissions_of_guard (pfx : Str) (ams : List AM)
    (h : (!HasSuffix pfx sep || decide ((Split pfx).length > 3)) = true) :
    maybeAddStarPermissions pfx ams = ams := by
  unfold maybeAddStarPermissions
  simp only
  rw [if_pos h]

/-- Wildcard synthesis returns the entries when one of them ends with "::*". -/
theorem maybeAddStarPermissions_of_star (pfx : Str) (ams : List AM)
    (h : hasStarEntry ams = true) : maybeAddStarPermissions pfx ams = ams := by
  unfold maybeAddStarPermissions
  simp only
  rw [if_pos h]
  split_ifs <;> rfl

/-- Wildcard synthesis puts the wildcard entry in front in the remaining case. -/
theorem maybeAddStarPermissions_of_neither (pfx : Str) (ams : List AM)
    (h1 : (!HasSuffix pfx sep || decide ((Split pfx).length > 3)) = false)
    (h2 : hasStarEntry ams = false) :
    maybeAddStarPermissions pfx ams
      = { Prefix := pfx ++ "*".toList, Alias := [],
          Complete := decide ((Split pfx).length ≥ 3),
          Lender := false, Owner := false } :: ams := by
  unfold maybeAddStarPermissions
  simp only
  rw [if_neg (by rw [h1]; simp), if_neg (by rw [h2]; simp)]

/-! ## Claims, continued -/

/-- C11, as stated, fails. With self-namespace name "self", a role lookup
that returns the role with ID "self::EditRole::abc123" and Name "Abc" for
the name-prefix "abc", and a Holdings Checker that returns [true, false], the
resolver's entry for "self::EditRole::abc" has the Prefix
"self::EditRole::self::EditRole::abc123", and `List` returns an error. -/
theorem C11_role_entry_counterexample :
    (stubEnv "self".toList []
        (lookupAt "abc".toList
          { ID := "self::EditRole::abc123".toList, Name := "Abc".toList })
        [] ([true, false], none)).rolesWithNamePrefix "abc".toList 10
      = ([{ ID := "self::EditRole::abc123".toList, Name := "Abc".toList }], none) ∧
    listPermissions
        (stubEnv "self".toList []
          (lookupAt "abc".toList
            { ID := "self::EditRole::abc123".toList, Name := "Abc".toList })
          [] ([true, false], none))
        "self::EditRole::abc".toList
      = some ([{ Prefix := "self::EditRole::self::EditRole::abc123".toList,
                 Alias := "Abc".toList, Complete := true,
                 Lender := false, Owner := false }], none) ∧
    amList
        (stubEnv "self".toList []
          (lookupAt "abc".toList
            { ID := "self::EditRole::abc123".toList, Name := "Abc".toList })
          [] ([true, false], none))
        "sa".toList "self::EditRole::abc".toList
      ≠ some ([{ Prefix := "self::EditRole::abc123".toList, Alias := "Abc".toList,
                 Complete := true, Lender := true, Owner := false }], none) := by
  decide

/-- C11, amended: when the self-namespace name holds no colon, the role
lookup for the name-prefix "abc" returns a single role, and the Holdings
Checker returns [true, false], the resolver returns for self +
"::EditRole::abc" exactly one entry, with Prefix self + "::EditRole::" + the
role's ID, Alias the role's Name and Complete=true; wildcard synthesis leaves
it alone; and whenever `List` returns without error it returns exactly that
entry with Lender=true and Owner=false. -/
theorem C11_role_entry (env : Env) (saID : Str) (r : Role)
    (hname : ':' ∉ env.appName)
    (hroles : env.rolesWithNamePrefix "abc".toList 10 = ([r], none))
    (hhold : ∀ ps, env.hasPermissions saID ps = ([true, false], none)) :
    listPermissions env (env.appName ++ "::EditRole::abc".toList)
      = some ([{ Prefix := env.appName ++ "::EditRole::".toList ++ r.ID, Alias := r.Name,
                 Complete := true, Lender := false, Owner := false }], none) ∧
    maybeAddStarPermissions (env.appName ++ "::EditRole::abc".toList)
        [{ Prefix := env.appName ++ "::EditRole::".toList ++ r.ID, Alias := r.Name,
           Complete := true, Lender := false, Owner := false }]
      = [{ Prefix := env.appName ++ "::EditRole::".toList ++ r.ID, Alias := r.Name,
           Complete := true, Lender := false, Owner := false }] ∧
    ∀ res, amList env saID (env.appName ++ "::EditRole::abc".toList) = some (res, none) →
      res = [{ Prefix := env.appName ++ "::EditRole::".toList ++ r.ID, Alias := r.Name,
               Complete := true, Lender := true, Owner := false }] := by
  have hpfx : env.appName ++ "::EditRole::abc".toList
      = env.appName ++ sep ++ ("EditRole".toList ++ sep ++ "abc".toList) := by
    simp [sep]
  have hent : env.appName ++ sep ++ "EditRole".toList ++ sep ++ r.ID
      = env.appName ++ "::EditRole::".toList ++ r.ID := by
    simp [sep]
  have hlist : listPermissions env (env.appName ++ "::EditRole::abc".toList)
      = some ([{ Prefix := env.appName ++ "::EditRole::".toList ++ r.ID, Alias := r.Name,
                 Complete := true, Lender := false, Owner := false }], none) := by
    have h3 : (Split "abc".toList).getD 0 [] = "abc".toList := by decide
    rw [hpfx, listPermissions_self env _ hname,
      listWillIAMPermissions_resource env _ _ hname (by decide), h3,
      listWillIAMResourceHierarchies_EditRole, hroles]
    simp only [List.map_cons, List.map_nil, hent]
  have hstar : maybeAddStarPermissions (env.appName ++ "::EditRole::abc".toList)
      [{ Prefix := env.appName ++ "::EditRole::".toList ++ r.ID, Alias := r.Name,
         Complete := true, Lender := false, Owner := false }]
      = [{ Prefix := env.appName ++ "::EditRole::".toList ++ r.ID, Alias := r.Name,
           Complete := true, Lender := false, Owner := false }] := by
    have hsuf : HasSuffix (env.appName ++ "::EditRole::abc".toList) sep = false := by
      rw [HasSuffix_append _ _ _ (by decide)]
      decide
    simp only [maybeAddStarPermissions, hsuf, Bool.not_false, Bool.true_or, if_true]
  refine ⟨hlist, hstar, ?_⟩
  intro res hres
  by_cases hval : (buildLenderAndOwnerPermissions
      (env.appName ++ "::EditRole::".toList ++ r.ID)).2.2 = none
  · have hall : ∀ a ∈ maybeAddStarPermissions (env.appName ++ "::EditRole::abc".toList)
        [{ Prefix := env.appName ++ "::EditRole::".toList ++ r.ID, Alias := r.Name,
           Complete := true, Lender := false, Owner := false }],
        a.Complete = true → (buildLenderAndOwnerPermissions a.Prefix).2.2 = none := by
      rw [hstar]
      intro a ha _
      rw [List.mem_singleton] at ha
      subst ha
      exact hval
    have := amList_of_resolved env saID _ _ [true, false] hlist hall (hhold _)
      (by rw [hstar]; rfl)
    rw [this, hstar] at hres
    simp only [Option.some.injEq, Prod.mk.injEq, and_true] at hres
    rw [← hres]
    rfl
  · have hbad : ∃ a ∈ maybeAddStarPermissions (env.appName ++ "::EditRole::abc".toList)
        [{ Prefix := env.appName ++ "::EditRole::".toList ++ r.ID, Alias := r.Name,
           Complete := true, Lender := false, Owner := false }],
        a.Complete = true ∧ (buildLenderAndOwnerPermissions a.Prefix).2.2 ≠ none := by
      rw [hstar]
      exact ⟨{ Prefix := env.appName ++ "::EditRole::".toList ++ r.ID, Alias := r.Name,
               Complete := true, Lender := false, Owner := false },
        List.mem_singleton_self _, rfl, hval⟩
    obtain ⟨e, he⟩ := amList_of_derivation_error env saID _ _ hlist hbad
    rw [he] at hres
    simp at hres

theorem C11_role_entry_witness :
    amList
        (stubEnv "RO".toList []
          (lookupAt "abc".toList { ID := "abc123".toList, Name := "Abc".toList })
          [] ([true, false], none))
        "sa".toList ("RO".toList ++ "::EditRole::abc".toList)
      = some ([{ Prefix := "RO::EditRole::abc123".toList, Alias := "Abc".toList,
                 Complete := true, Lender := true, Owner := false }], none) ∧
    ∀ res, amList
        (stubEnv "RO".toList []
          (lookupAt "abc".toList { ID := "abc123".toList, Name := "Abc".toList })
          [] ([true, false], none))
        "sa".toList ("RO".toList ++ "::EditRole::abc".toList) = some (res, none) →
      res = [{ Prefix := "RO".toList ++ "::EditRole::".toList ++ "abc123".toList,
               Alias := "Abc".toList, Complete := true, Lender := true, Owner := false }] :=
  ⟨by decide,
   (C11_role_entry
      (stubEnv "RO".toList []
        (lookupAt "abc".toList { ID := "abc123".toList, Name := "Abc".toList })
        [] ([true, false], none))
      "sa".toList { ID := "abc123".toList, Name := "Abc".toList }
      (by decide) (by decide) (fun _ => rfl)).2.2⟩

/-- C12: when the resolver has returned entries and every Complete entry,
after wildcard synthesis, has derived permissions that validate, `List`
submits to the Holdings Checker the batch lender_0, owner_0, lender_1,
owner_1, ... over the Complete entries in list order; and given an answer h
of the same length it returns the same entries in the same order, where the
Complete entry preceded by k Complete entries has Lender = h[2k] and
Owner = h[2k+1] and its other fields unchanged, and every non-Complete entry
is unchanged. -/
theorem C12_holdings_annotated (env : Env) (saID pfx : Str) (ams0 : List AM)
    (h : List Bool)
    (hres : listPermissions env pfx = some (ams0, none))
    (hval : ∀ a ∈ maybeAddStarPermissions pfx ams0, a.Complete = true →
      (buildLenderAndOwnerPermissions a.Prefix).2.2 = none)
    (hh : env.hasPermissions saID (specHoldingsBatch (maybeAddStarPermissions pfx ams0))
      = (h, none))
    (hlen : h.length = (specHoldingsBatch (maybeAddStarPermissions pfx ams0)).length) :
    (collectComplete (maybeAddStarPermissions pfx ams0) 0 [] []).1.1
      = specHoldingsBatch (maybeAddStarPermissions pfx ams0) ∧
    amList env saID pfx
      = some (specAnnotate h 0 (maybeAddStarPermissions pfx ams0), none) ∧
    (specAnnotate h 0 (maybeAddStarPermissions pfx ams0)).length
      = (maybeAddStarPermissions pfx ams0).length ∧
    ∀ i a, (maybeAddStarPermissions pfx ams0)[i]? = some a →
      (a.Complete = false →
        (specAnnotate h 0 (maybeAddStarPermissions pfx ams0))[i]? = some a) ∧
      (a.Complete = true → ∃ l o,
        h[2 * countComplete ((maybeAddStarPermissions pfx ams0).take i)]? = some l ∧
        h[2 * countComplete ((maybeAddStarPermissions pfx ams0).take i) + 1]? = some o ∧
        (specAnnotate h 0 (maybeAddStarPermissions pfx ams0))[i]?
          = some { a with Lender := l, Owner := o }) := by
  refine ⟨?_, amList_of_resolved env saID pfx ams0 h hres hval hh hlen,
    specAnnotate_length _ _ _, ?_⟩
  · rw [collectComplete_ok _ 0 [] [] hval]
    rfl
  · intro i a ha
    have hget := specAnnotate_getElem? h 0 _ i a ha
    constructor
    · intro hc
      rw [hget, hc]
      rfl
    · intro hc
      have hlt := countComplete_take_lt _ i a ha hc
      rw [specHoldingsBatch_length] at hlen
      refine ⟨h.getD (2 * countComplete ((maybeAddStarPermissions pfx ams0).take i)) false,
        h.getD (2 * countComplete ((maybeAddStarPermissions pfx ams0).take i) + 1) false,
        ?_, ?_, ?_⟩
      · rw [List.getD_eq_getElem _ _ (by omega), List.getElem?_eq_getElem]
      · rw [List.getD_eq_getElem _ _ (by omega), List.getElem?_eq_getElem]
      · rw [hget, if_pos hc, Nat.zero_add]

theorem C12_holdings_annotated_witness :
    amList
        (stubEnv "self".toList
          [{ Name := "M".toList, PermissionName := "RL".toList, AMURL := "http://m/am".toList }]
          (fun _ _ => ([], none))
          [{ Prefix := "a::b".toList, Alias := [], Complete := true,
             Lender := false, Owner := false },
           { Prefix := "c".toList, Alias := [], Complete := false,
             Lender := true, Owner := true },
           { Prefix := "d::e".toList, Alias := "x".toList, Complete := true,
             Lender := false, Owner := false }]
          ([true, false, false, true], none))
        "sa".toList "RL::x".toList
      = some ([{ Prefix := "RL::a::b".toList, Alias := [], Complete := true,
                 Lender := true, Owner := false },
               { Prefix := "RL::c".toList, Alias := [], Complete := false,
                 Lender := true, Owner := true },
               { Prefix := "RL::d::e".toList, Alias := "x".toList, Complete := true,
                 Lender := false, Owner := true }], none) :=
  (C12_holdings_annotated
    (stubEnv "self".toList
      [{ Name := "M".toList, PermissionName := "RL".toList, AMURL := "http://m/am".toList }]
      (fun _ _ => ([], none))
      [{ Prefix := "a::b".toList, Alias := [], Complete := true,
         Lender := false, Owner := false },
       { Prefix := "c".toList, Alias := [], Complete := false,
         Lender := true, Owner := true },
       { Prefix := "d::e".toList, Alias := "x".toList, Complete := true,
         Lender := false, Owner := false }]
      ([true, false, false, true], none))
    "sa".toList "RL::x".toList
    [{ Prefix := "RL::a::b".toList, Alias := [], Complete := true,
       Lender := false, Owner := false },
     { Prefix := "RL::c".toList, Alias := [], Complete := false,
       Lender := true, Owner := true },
     { Prefix := "RL::d::e".toList, Alias := "x".toList, Complete := true,
       Lender := false, Owner := false }]
    [true, false, false, true]
    (by decide) (by decide) rfl (by decide)).2.1.trans (by decide)

/-- C13, as stated, fails: `List` calls the Holdings Checker even when no
entry is Complete, and returns its error. With one registered service and a
Holdings Checker that fails, the listing of the empty prefix is an error
instead of the two names. -/
theorem C13_top_level_listing_counterexample :
    amList
        (stubEnv "self".toList
          [{ Name := "M".toList, PermissionName := "maestro".toList,
             AMURL := "http://m/am".toList }]
          (fun _ _ => ([], none)) [] ([], some (Err.adapter 1)))
        "sa".toList []
      = some ([], some (Err.adapter 1)) ∧
    amList
        (stubEnv "self".toList
          [{ Name := "M".toList, PermissionName := "maestro".toList,
             AMURL := "http://m/am".toList }]
          (fun _ _ => ([], none)) [] ([], some (Err.adapter 1)))
        "sa".toList []
      ≠ some ([{ Prefix := "self".toList, Alias := [], Complete := false,
                 Lender := false, Owner := false },
               { Prefix := "maestro".toList, Alias := [], Complete := false,
                 Lender := false, Owner := false }], none) := by
  decide

/-- C13, amended: for every prefix that contains no "::", every registry
listing, and a Holdings Checker whose call (made with the empty batch)
succeeds, `List` returns without error exactly the names among the
self-namespace name followed by the registered services' permission names,
in that order, that start with the prefix, one entry per name with Prefix the
name, Complete=false and Lender=Owner=false, and no wildcard entry; with the
empty prefix every name is returned. -/
theorem C13_top_level_listing (env : Env) (saID pfx : Str) (services : List Service)
    (x : List Bool) (hno : Contains pfx sep = false)
    (hreg : env.servicesList = (services, none))
    (hhold : env.hasPermissions saID [] = (x, none)) :
    amList env saID pfx
      = some (((env.appName :: services.map (fun s => s.PermissionName)).filter
          (fun n => decide (pfx <+: n))).map (fun n =>
            { Prefix := n, Alias := [], Complete := false,
              Lender := false, Owner := false }), none) ∧
    amList env saID []
      = some ((env.appName :: services.map (fun s => s.PermissionName)).map (fun n =>
            { Prefix := n, Alias := [], Complete := false,
              Lender := false, Owner := false }), none) := by
  refine ⟨amList_top_level env saID pfx services x hno hreg hhold, ?_⟩
  have h0 := amList_top_level env saID [] services x (by decide) hreg hhold
  have hall : (env.appName :: services.map (fun s => s.PermissionName)).filter
      (fun n => decide (([] : Str) <+: n))
      = env.appName :: services.map (fun s => s.PermissionName) := by
    apply List.filter_eq_self.mpr
    intro n _
    exact decide_eq_true (List.nil_prefix)
  rw [h0, hall]

theorem C13_top_level_listing_witness :
    amList
        (stubEnv "self".toList
          [{ Name := "M".toList, PermissionName := "maestro".toList,
             AMURL := "http://m/am".toList },
           { Name := "S".toList, PermissionName := "sniper".toList,
             AMURL := "http://s/am".toList }]
          (fun _ _ => ([], none)) [] ([], none))
        "sa".toList "s".toList
      = some ([{ Prefix := "self".toList, Alias := [], Complete := false,
                 Lender := false, Owner := false },
               { Prefix := "sniper".toList, Alias := [], Complete := false,
                 Lender := false, Owner := false }], none) :=
  (C13_top_level_listing
    (stubEnv "self".toList
      [{ Name := "M".toList, PermissionName := "maestro".toList,
         AMURL := "http://m/am".toList },
       { Name := "S".toList, PermissionName := "sniper".toList,
         AMURL := "http://s/am".toList }]
      (fun _ _ => ([], none)) [] ([], none))
    "sa".toList "s".toList _ [] (by decide) rfl rfl).1.trans (by decide)

/-- C14, as stated, fails in its last part: `List` calls the Holdings Checker
even when no entry is Complete, and returns its error. With a Holdings
Checker that fails, the listing of "self::" is an error instead of the
wildcard entry and the nine actions. -/
theorem C14_action_listing_counterexample :
    amList (stubEnv "self".toList [] (fun _ _ => ([], none)) [] ([], some (Err.adapter 1)))
        "sa".toList "self::".toList
      = some ([], some (Err.adapter 1)) ∧
    ∀ res, amList
        (stubEnv "self".toList [] (fun _ _ => ([], none)) [] ([], some (Err.adapter 1)))
        "sa".toList "self::".toList ≠ some (res, none) := by
  have h : amList
      (stubEnv "self".toList [] (fun _ _ => ([], none)) [] ([], some (Err.adapter 1)))
      "sa".toList "self::".toList = some ([], some (Err.adapter 1)) := by decide
  refine ⟨h, fun res hres => ?_⟩
  rw [h] at hres
  simp at hres

/-- C14, amended: when the self-namespace name holds no colon, for every
actionPrefix that contains no "::" the self-namespace resolver on self + "::"
+ actionPrefix returns exactly the actions of RolesActions ++
ServiceAccountsActions ++ ServicesActions that start with actionPrefix, in
that order, each as an entry with Prefix self + "::" + action and
Complete=false; for the empty actionPrefix these are all nine catalog
actions; and, when the Holdings Checker's call with the empty batch
succeeds, `List` on self + "::" returns the wildcard entry self + "::*"
followed by them, every returned entry being non-Complete. -/
theorem C14_action_listing (env : Env) (saID ap : Str) (x : List Bool)
    (hname : ':' ∉ env.appName) (hap : Contains ap sep = false)
    (hhold : env.hasPermissions saID [] = (x, none)) :
    listWillIAMPermissions env (env.appName ++ sep ++ ap)
      = some ((((RolesActions ++ ServiceAccountsActions) ++ ServicesActions).filter
          (fun a => decide (ap <+: a))).map (fun a =>
            { Prefix := env.appName ++ sep ++ a, Alias := [], Complete := false,
              Lender := false, Owner := false }), none) ∧
    listWillIAMPermissions env (env.appName ++ sep)
      = some (((RolesActions ++ ServiceAccountsActions) ++ ServicesActions).map (fun a =>
            { Prefix := env.appName ++ sep ++ a, Alias := [], Complete := false,
              Lender := false, Owner := false }), none) ∧
    ((RolesActions ++ ServiceAccountsActions) ++ ServicesActions).length = 9 ∧
    amList env saID (env.appName ++ sep)
      = some ({ Prefix := env.appName ++ sep ++ "*".toList, Alias := [], Complete := false,
                Lender := false, Owner := false } ::
          ((RolesActions ++ ServiceAccountsActions) ++ ServicesActions).map (fun a =>
            { Prefix := env.appName ++ sep ++ a, Alias := [], Complete := false,
              Lender := false, Owner := false }), none) ∧
    ∀ res, amList env saID (env.appName ++ sep) = some (res, none) →
      ∀ a ∈ res, a.Complete = false := by
  have hres1 : listWillIAMPermissions env (env.appName ++ sep ++ ap)
      = some ((((RolesActions ++ ServiceAccountsActions) ++ ServicesActions).filter
          (fun a => decide (ap <+: a))).map (fun a =>
            { Prefix := env.appName ++ sep ++ a, Alias := [], Complete := false,
              Lender := false, Owner := false }), none) := by
    rw [listWillIAMPermissions_actions env ap hname hap, filter_HasPrefix]
  have hall : ((RolesActions ++ ServiceAccountsActions) ++ ServicesActions).filter
      (fun a => HasPrefix a [])
      = (RolesActions ++ ServiceAccountsActions) ++ ServicesActions := by
    apply List.filter_eq_self.mpr
    intro a _
    exact HasPrefix_nil a
  have hres2 : listWillIAMPermissions env (env.appName ++ sep)
      = some (((RolesActions ++ ServiceAccountsActions) ++ ServicesActions).map (fun a =>
            { Prefix := env.appName ++ sep ++ a, Alias := [], Complete := false,
              Lender := false, Owner := false }), none) := by
    have := listWillIAMPermissions_actions env [] hname (by decide)
    rw [List.append_nil, hall] at this
    exact this
  have hlist : listPermissions env (env.appName ++ sep)
      = some (((RolesActions ++ ServiceAccountsActions) ++ ServicesActions).map (fun a =>
            { Prefix := env.appName ++ sep ++ a, Alias := [], Complete := false,
              Lender := false, Owner := false }), none) := by
    have := listPermissions_self env [] hname
    rw [List.append_nil] at this
    rw [this, hres2]
  have hsuf : HasSuffix (env.appName ++ sep) sep = true := by
    rw [HasSuffix_append _ _ _ (le_refl _)]
    decide
  have hsplit : Split (env.appName ++ sep) = [env.appName, []] := by
    have := Split_append_sep env.appName [] hname
    rw [List.append_nil] at this
    rw [this]
    rfl
  have hnostar : hasStarEntry
      (((RolesActions ++ ServiceAccountsActions) ++ ServicesActions).map (fun a =>
        ({ Prefix := env.appName ++ sep ++ a, Alias := [], Complete := false,
           Lender := false, Owner := false } : AM))) = false := by
    apply hasStarEntry_false
    intro e he
    obtain ⟨a, ha, hae⟩ := List.mem_map.mp he
    rw [← hae]
    have hcat : ∀ b ∈ (RolesActions ++ ServiceAccountsActions) ++ ServicesActions,
        "::*".toList.length ≤ (sep ++ b).length ∧
          HasSuffix (sep ++ b) "::*".toList = false := by decide
    obtain ⟨h1, h2⟩ := hcat a ha
    show HasSuffix (env.appName ++ sep ++ a) "::*".toList = false
    rw [List.append_assoc, HasSuffix_append _ _ _ h1, h2]
  have hstar : maybeAddStarPermissions (env.appName ++ sep)
      (((RolesActions ++ ServiceAccountsActions) ++ ServicesActions).map (fun a =>
        ({ Prefix := env.appName ++ sep ++ a, Alias := [], Complete := false,
           Lender := false, Owner := false } : AM)))
      = { Prefix := env.appName ++ sep ++ "*".toList, Alias := [], Complete := false,
          Lender := false, Owner := false } ::
        ((RolesActions ++ ServiceAccountsActions) ++ ServicesActions).map (fun a =>
          { Prefix := env.appName ++ sep ++ a, Alias := [], Complete := false,
            Lender := false, Owner := false }) := by
    simp only [maybeAddStarPermissions, hsuf, hsplit, hnostar, List.length_cons,
      List.length_nil]
    rfl
  have hnc : ∀ a ∈ maybeAddStarPermissions (env.appName ++ sep)
      (((RolesActions ++ ServiceAccountsActions) ++ ServicesActions).map (fun a =>
        ({ Prefix := env.appName ++ sep ++ a, Alias := [], Complete := false,
           Lender := false, Owner := false } : AM))), a.Complete = false := by
    rw [hstar]
    intro a ha
    rcases List.mem_cons.mp ha with e | e
    · rw [e]
    · obtain ⟨b, _, hb⟩ := List.mem_map.mp e
      rw [← hb]
  have hfin := amList_of_none_complete env saID _ _ x hlist hnc hhold
  refine ⟨hres1, hres2, by decide, ?_, ?_⟩
  · rw [hfin, hstar]
  · intro res hres
    rw [hfin] at hres
    simp only [Option.some.injEq, Prod.mk.injEq, and_true] at hres
    rw [← hres]
    exact hnc

theorem C14_action_listing_witness :
    listWillIAMPermissions (emptyEnv "self".toList []) ("self".toList ++ sep ++ "EditS".toList)
      = some ([{ Prefix := "self::EditServiceAccount".toList, Alias := [],
                 Complete := false, Lender := false, Owner := false },
               { Prefix := "self::EditService".toList, Alias := [],
                 Complete := false, Lender := false, Owner := false }], none) :=
  (C14_action_listing (emptyEnv "self".toList []) "sa".toList "EditS".toList []
    (by decide) (by decide) rfl).1.trans (by decide)

/-- C15, as stated, fails: the role lookup is asked with the third "::"-part
of the prefix, not with everything after "self::EditRole::". With a role
lookup that knows a role only under the name-prefix "a::b", the resolver on
"self::EditRole::a::b" returns no entry. -/
theorem C15_role_drill_down_counterexample :
    (stubEnv "self".toList []
        (lookupAt "a::b".toList { ID := "r1".toList, Name := "Role one".toList })
        [] ([], none)).rolesWithNamePrefix "a::b".toList 10
      = ([{ ID := "r1".toList, Name := "Role one".toList }], none) ∧
    listWillIAMPermissions
        (stubEnv "self".toList []
          (lookupAt "a::b".toList { ID := "r1".toList, Name := "Role one".toList })
          [] ([], none))
        "self::EditRole::a::b".toList
      = some ([], none) ∧
    listWillIAMPermissions
        (stubEnv "self".toList []
          (lookupAt "a::b".toList { ID := "r1".toList, Name := "Role one".toList })
          [] ([], none))
        "self::EditRole::a::b".toList
      ≠ some ([{ Prefix := "self::EditRole::r1".toList, Alias := "Role one".toList,
                 Complete := true, Lender := false, Owner := false }], none) := by
  decide

/-- C15, amended: when the self-namespace name holds no colon, for every
prefix self + "::EditRole::" + resourcePrefix the self-namespace resolver
calls the role lookup with the first "::"-part of resourcePrefix (the third
part of the prefix; all of resourcePrefix when it contains no "::") and limit
10, returns the lookup's error if there is one, and otherwise maps the
returned roles, in order and one to one, to entries with Complete=true,
Alias the role's Name and Prefix self + "::EditRole::" + the role's ID. -/
theorem C15_role_drill_down (env : Env) (rp : Str) (hname : ':' ∉ env.appName) :
    listWillIAMPermissions env (env.appName ++ "::EditRole::".toList ++ rp)
      = (match env.rolesWithNamePrefix ((Split rp).getD 0 []) 10 with
        | (_, some e) => some ([], some e)
        | (rs, none) =>
          some (rs.map (fun r =>
            { Prefix := env.appName ++ "::EditRole::".toList ++ r.ID, Alias := r.Name,
              Complete := true, Lender := false, Owner := false }), none)) ∧
    (Contains rp sep = false → (Split rp).getD 0 [] = rp) := by
  constructor
  · have hpfx : env.appName ++ "::EditRole::".toList ++ rp
        = env.appName ++ sep ++ ("EditRole".toList ++ sep ++ rp) := by
      simp [sep]
    have hent : ∀ t : Str, env.appName ++ sep ++ "EditRole".toList ++ sep ++ t
        = env.appName ++ "::EditRole::".toList ++ t := by
      intro t
      simp [sep]
    rw [hpfx, listWillIAMPermissions_resource env _ _ hname (by decide),
      listWillIAMResourceHierarchies_EditRole]
    rcases hr : env.rolesWithNamePrefix ((Split rp).getD 0 []) 10 with ⟨rs, _ | e⟩
    · simp only [List.map_map, hent]
      rfl
    · rfl
  · intro hc
    rw [Split_of_not_Contains rp hc]
    rfl

theorem C15_role_drill_down_witness :
    listWillIAMPermissions
        (stubEnv "self".toList []
          (lookupAt "ab".toList { ID := "r1".toList, Name := "Role one".toList })
          [] ([], none))
        ("self".toList ++ "::EditRole::".toList ++ "ab".toList)
      = some ([{ Prefix := "self::EditRole::r1".toList, Alias := "Role one".toList,
                 Complete := true, Lender := false, Owner := false }], none) :=
  (C15_role_drill_down
    (stubEnv "self".toList []
      (lookupAt "ab".toList { ID := "r1".toList, Name := "Role one".toList })
      [] ([], none))
    "ab".toList (by decide)).1.trans (by decide)

/-- C16: when the self-namespace name holds no colon, for every prefix self
+ "::" + action + "::" + rest whose action is CreateRoles, ListRoles, a member
of ServiceAccountsActions or a member of ServicesActions, the self-namespace
resolver returns the empty entry list without error, whatever the role lookup
would answer: the result is the same with any other role lookup in its
place. -/
theorem C16_no_drill_down (env : Env) (action rest : Str)
    (hname : ':' ∉ env.appName)
    (hact : action ∈ ["CreateRoles".toList, "ListRoles".toList] ++
      ServiceAccountsActions ++ ServicesActions) :
    listWillIAMPermissions env (env.appName ++ sep ++ action ++ sep ++ rest)
      = some ([], none) ∧
    ∀ lookup, listWillIAMPermissions { env with rolesWithNamePrefix := lookup }
        (env.appName ++ sep ++ action ++ sep ++ rest) = some ([], none) := by
  have hcolon : ∀ a ∈ ["CreateRoles".toList, "ListRoles".toList] ++
      ServiceAccountsActions ++ ServicesActions, ':' ∉ a := by decide
  have key : ∀ env1 : Env, env1.appName = env.appName →
      listWillIAMPermissions env1 (env.appName ++ sep ++ action ++ sep ++ rest)
        = some ([], none) := by
    intro env1 h1
    have hrh : ∀ rp, listWillIAMResourceHierarchies env1 action rp = ([], none) := by
      intro rp
      have hall : ∀ a ∈ ["CreateRoles".toList, "ListRoles".toList] ++
          ServiceAccountsActions ++ ServicesActions,
          (a = "CreateRoles".toList ∨ a = "ListRoles".toList) ∨
            actionsContains RolesActions a = false := by decide
      rcases hall action hact with hcl | hnr
      · have hin : actionsContains RolesActions action = true := by
          rcases hcl with e | e <;> subst e <;> decide
        simp only [listWillIAMResourceHierarchies, hin, if_true, listRolesActionsRH, hcl]
      · simp only [listWillIAMResourceHierarchies, hnr, Bool.false_eq_true, if_false]
        split_ifs <;> rfl
    have hpfx : env.appName ++ sep ++ action ++ sep ++ rest
        = env1.appName ++ sep ++ (action ++ sep ++ rest) := by
      rw [h1]
      simp
    rw [hpfx, listWillIAMPermissions_resource env1 action rest (h1 ▸ hname)
      (hcolon action hact), hrh]
    rfl
  exact ⟨key env rfl, fun lookup => key _ rfl⟩

theorem C16_no_drill_down_witness :
    listWillIAMPermissions
        (stubEnv "self".toList [] (fun _ _ => ([], some (Err.adapter 7))) [] ([], none))
        ("self".toList ++ sep ++ "ListRoles".toList ++ sep ++ "abc".toList)
      = some ([], none) ∧
    listWillIAMPermissions
        (stubEnv "self".toList [] (fun _ _ => ([], some (Err.adapter 7))) [] ([], none))
        ("self".toList ++ sep ++ "EditService".toList ++ sep ++ "x::y".toList)
      = some ([], none) :=
  ⟨(C16_no_drill_down
      (stubEnv "self".toList [] (fun _ _ => ([], some (Err.adapter 7))) [] ([], none))
      "ListRoles".toList "abc".toList (by decide) (by decide)).1,
   (C16_no_drill_down
      (stubEnv "self".toList [] (fun _ _ => ([], some (Err.adapter 7))) [] ([], none))
      "EditService".toList "x::y".toList (by decide) (by decide)).1⟩

/-- The entries of the remote resolver. For every prefix with at least two
"::"-parts whose first part, the service segment, differs from the
self-namespace name, the prefix is the service segment, "::" and the
remaining parts joined; the remote resolver asks the registry for the service
segment and requests the URL string made of the service's AM URL, "?prefix="
and that remainder; and when the request succeeds and decodes to a list, the
resolver returns a list of the same length and order in which every entry has
the service segment and "::" in front of its Prefix, with Alias, Complete,
Lender and Owner unchanged. -/
theorem remote_entries_reprefixed (env : Env) (pfx seg r : Str) (rs : List Str)
    (svc : Service) (body : Str) (ams : List AM)
    (hs : Split pfx = seg :: r :: rs)
    (hseg : seg ≠ env.appName)
    (hreg : env.servicesWithPermissionName seg = (svc, none))
    (hreq : env.newRequest (svc.AMURL ++ "?prefix=".toList ++ Join (r :: rs)) = none)
    (hdo : env.httpDo (svc.AMURL ++ "?prefix=".toList ++ Join (r :: rs)) = none)
    (hread : env.readAll (svc.AMURL ++ "?prefix=".toList ++ Join (r :: rs)) = (body, none))
    (hjson : env.jsonUnmarshal body = (ams, none)) :
    pfx = seg ++ sep ++ Join (r :: rs) ∧
    listServicePermissions env seg pfx
      = (ams.map (fun a => { a with Prefix := seg ++ sep ++ a.Prefix }), none) ∧
    listPermissions env pfx
      = some (ams.map (fun a => { a with Prefix := seg ++ sep ++ a.Prefix }), none) ∧
    (ams.map (fun a => { a with Prefix := seg ++ sep ++ a.Prefix })).length = ams.length ∧
    ∀ (i : Nat) (a : AM), ams[i]? = some a →
      (ams.map (fun a => { a with Prefix := seg ++ sep ++ a.Prefix }))[i]?
        = some ({ Prefix := seg ++ sep ++ a.Prefix, Alias := a.Alias,
                  Complete := a.Complete, Lender := a.Lender, Owner := a.Owner } : AM) := by
  have hj : pfx = seg ++ sep ++ Join (r :: rs) := by
    have := Join_Split pfx
    rw [hs] at this
    rw [← this]
    rfl
  have hremote : listServicePermissions env seg pfx
      = (ams.map (fun a => { a with Prefix := seg ++ sep ++ a.Prefix }), none) := by
    simp only [listServicePermissions, hreg, hs, List.drop_succ_cons, List.drop_zero,
      hreq, hdo, hread, hjson]
  have hc : Contains pfx sep = true := by
    apply Contains_of_two_parts
    rw [hs]
    simp only [List.length_cons]
    omega
  refine ⟨hj, hremote, ?_, List.length_map _ _, ?_⟩
  · simp only [listPermissions, hc, Bool.not_true, hs, List.getD_cons_zero, hseg,
      if_false, hremote]
    rfl
  · intro i a ha
    rw [List.getElem?_map, ha]
    rfl

theorem remote_entries_reprefixed_example :
    listPermissions
        (stubEnv "self".toList
          [{ Name := "M".toList, PermissionName := "maestro".toList,
             AMURL := "http://m/am".toList }]
          (fun _ _ => ([], none))
          [{ Prefix := "sniper::na".toList, Alias := "NA".toList, Complete := true,
             Lender := true, Owner := false },
           { Prefix := "sniper::*".toList, Alias := [], Complete := false,
             Lender := false, Owner := false }]
          ([], none))
        "maestro::sniper::n".toList
      = some ([{ Prefix := "maestro::sniper::na".toList, Alias := "NA".toList,
                 Complete := true, Lender := true, Owner := false },
               { Prefix := "maestro::sniper::*".toList, Alias := [], Complete := false,
                 Lender := false, Owner := false }], none) :=
  (remote_entries_reprefixed
    (stubEnv "self".toList
      [{ Name := "M".toList, PermissionName := "maestro".toList,
         AMURL := "http://m/am".toList }]
      (fun _ _ => ([], none))
      [{ Prefix := "sniper::na".toList, Alias := "NA".toList, Complete := true,
         Lender := true, Owner := false },
       { Prefix := "sniper::*".toList, Alias := [], Complete := false,
         Lender := false, Owner := false }]
      ([], none))
    "maestro::sniper::n".toList "maestro".toList "sniper".toList ["n".toList]
    { Name := "M".toList, PermissionName := "maestro".toList, AMURL := "http://m/am".toList }
    "http://m/am?prefix=sniper::n".toList
    [{ Prefix := "sniper::na".toList, Alias := "NA".toList, Complete := true,
       Lender := true, Owner := false },
     { Prefix := "sniper::*".toList, Alias := [], Complete := false,
       Lender := false, Owner := false }]
    (by decide) (by decide) (by decide) rfl rfl (by decide) rfl).2.2.1.trans (by decide)

/-- The remote resolver requests `requestURL`: a failure of
`http.NewRequest` on that string is the resolver's result. -/
theorem listServicePermissions_requests (env : Env) (seg pfx : Str) (svc : Service)
    (e : Err) (hreg : env.servicesWithPermissionName seg = (svc, none))
    (hreq : env.newRequest (requestURL svc pfx) = some e) :
    listServicePermissions env seg pfx = ([], some e) := by
  unfold requestURL at hreq
  simp only [listServicePermissions, hreg, hreq]

theorem cutBefore_of_not_mem (c : Char) (s : Str) (h : c ∉ s) : cutBefore c s = s := by
  induction s with
  | nil => rfl
  | cons x t ih =>
    have hx : ¬ x = c := fun e => h (by simp [e])
    rw [cutBefore, if_neg hx, ih (fun e => h (List.mem_cons_of_mem _ e))]

theorem cutAfter_append (c : Char) (a t : Str) (h : c ∉ a) :
    cutAfter c (a ++ c :: t) = t := by
  induction a with
  | nil => simp [cutAfter]
  | cons x a ih =>
    have hx : ¬ x = c := fun e => h (by simp [e])
    rw [List.cons_append, cutAfter, if_neg hx, ih (fun e => h (List.mem_cons_of_mem _ e))]

/-- The query of a request is "prefix=" and the remainder of the prefix when
neither the AM URL nor the remainder holds a '#' and the AM URL holds no
'?'. -/
theorem urlRawQuery_requestURL (svc : Service) (pfx : Str)
    (h1 : '?' ∉ svc.AMURL) (h2 : '#' ∉ svc.AMURL)
    (h3 : '#' ∉ Join ((Split pfx).drop 1)) :
    urlRawQuery (requestURL svc pfx) = "prefix=".toList ++ Join ((Split pfx).drop 1) := by
  have hno : '#' ∉ svc.AMURL ++ "?prefix=".toList ++ Join ((Split pfx).drop 1) := by
    intro hm
    rcases List.mem_append.mp hm with hm | hm
    · rcases List.mem_append.mp hm with hm | hm
      · exact h2 hm
      · exact absurd hm (by decide)
    · exact h3 hm
  have happ : svc.AMURL ++ "?prefix=".toList ++ Join ((Split pfx).drop 1)
      = svc.AMURL ++ '?' :: ("prefix=".toList ++ Join ((Split pfx).drop 1)) := by
    simp
  rw [urlRawQuery, requestURL, cutBefore_of_not_mem _ _ hno, happ, cutAfter_append _ _ _ h1]

/-- C17: on the prefix "maestro::a#b::c", with the service "maestro"
registered under the AM URL "http://m/am", the text of the prefix after its
first "::" is "a#b::c", the URL string the remote resolver requests is
"http://m/am?prefix=a#b::c", written without escaping, and the query of that
request is "prefix=a", the same as for the prefix "maestro::a": the text from
the '#' on is a fragment and is not sent. The query is not prefix = the text
after the first "::". -/
theorem C17_query_loses_fragment :
    Join ((Split "maestro::a#b::c".toList).drop 1) = "a#b::c".toList ∧
    requestURL { Name := "M".toList, PermissionName := "maestro".toList,
                 AMURL := "http://m/am".toList } "maestro::a#b::c".toList
      = "http://m/am?prefix=a#b::c".toList ∧
    urlRawQuery (requestURL { Name := "M".toList, PermissionName := "maestro".toList,
                              AMURL := "http://m/am".toList } "maestro::a#b::c".toList)
      = "prefix=a".toList ∧
    urlRawQuery (requestURL { Name := "M".toList, PermissionName := "maestro".toList,
                              AMURL := "http://m/am".toList } "maestro::a#b::c".toList)
      ≠ "prefix=".toList ++ Join ((Split "maestro::a#b::c".toList).drop 1) ∧
    urlRawQuery (requestURL { Name := "M".toList, PermissionName := "maestro".toList,
                              AMURL := "http://m/am".toList } "maestro::a#b::c".toList)
      = urlRawQuery (requestURL { Name := "M".toList, PermissionName := "maestro".toList,
                                  AMURL := "http://m/am".toList } "maestro::a".toList) := by
  decide

/-- C18: `List` returns an error whenever the resolver fails (because the
registry listing, the registry lookup, the remote request, its reading or
decoding, or the role lookup fails), whenever some Complete entry has no
valid derived Lender and Owner permissions, and whenever the Holdings Checker
fails; and whenever `List` returns an error it returns no entry. -/
theorem C18_no_partial_results (env : Env) (saID pfx : Str) :
    (∀ x e, listPermissions env pfx = some (x, some e) →
      amList env saID pfx = some ([], some e)) ∧
    (∀ x e, Contains pfx sep = false → env.servicesList = (x, some e) →
      amList env saID pfx = some ([], some e)) ∧
    (∀ seg tl e, Split pfx = seg :: tl → tl ≠ [] → seg ≠ env.appName →
      (listServicePermissions env seg pfx).2 = some e →
      amList env saID pfx = some ([], some e)) ∧
    (∀ rp x e, ':' ∉ env.appName →
      pfx = env.appName ++ sep ++ ("EditRole".toList ++ sep ++ rp) →
      env.rolesWithNamePrefix ((Split rp).getD 0 []) 10 = (x, some e) →
      amList env saID pfx = some ([], some e)) ∧
    (∀ ams0, listPermissions env pfx = some (ams0, none) →
      (∃ a ∈ maybeAddStarPermissions pfx ams0, a.Complete = true ∧
        (buildLenderAndOwnerPermissions a.Prefix).2.2 ≠ none) →
      ∃ e, amList env saID pfx = some ([], some e)) ∧
    (∀ ams0 ps is x e, listPermissions env pfx = some (ams0, none) →
      collectComplete (maybeAddStarPermissions pfx ams0) 0 [] [] = ((ps, is), none) →
      env.hasPermissions saID ps = (x, some e) →
      amList env saID pfx = some ([], some e)) ∧
    (∀ res e, amList env saID pfx = some (res, some e) → res = []) := by
  refine ⟨fun x e h => amList_of_resolver_error env saID pfx x e h, ?_, ?_, ?_,
    fun ams0 h hb => amList_of_derivation_error env saID pfx ams0 h hb,
    fun ams0 ps is x e h hc hh => amList_of_checker_error env saID pfx ams0 ps is x e h hc hh,
    fun res e h => amList_error_nil env saID pfx res e h⟩
  · intro x e hno hreg
    exact amList_of_resolver_error env saID pfx [] e
      (listPermissions_registry_error env pfx x e hno hreg)
  · intro seg tl e hs htl hseg herr
    have h := listPermissions_remote env pfx seg tl hs htl hseg
    have hpair : listServicePermissions env seg pfx
        = ((listServicePermissions env seg pfx).1, some e) := by
      rw [← herr]
    rw [hpair] at h
    exact amList_of_resolver_error env saID pfx _ e h
  · intro rp x e hname hp hroles
    rw [hp]
    exact amList_of_resolver_error env saID _ [] e
      (listPermissions_role_lookup_error env rp x e hname hroles)

theorem C18_no_partial_results_witness :
    amList (stubEnv "self".toList [] (fun _ _ => ([], some (Err.adapter 3))) [] ([], none))
        "sa".toList "self::EditRole::a".toList
      = some ([], some (Err.adapter 3)) ∧
    amList (stubEnv "self".toList [] (fun _ _ => ([], none)) [] ([], none))
        "sa".toList "maestro::x".toList
      = some ([], some (Err.adapter 404)) ∧
    amList (stubEnv "RO".toList [] (fun _ _ => ([], none)) [] ([], some (Err.adapter 5)))
        "sa".toList "RO::EditRole::".toList
      = some ([], some (Err.adapter 5)) :=
  ⟨(C18_no_partial_results
      (stubEnv "self".toList [] (fun _ _ => ([], some (Err.adapter 3))) [] ([], none))
      "sa".toList "self::EditRole::a".toList).2.2.2.1 "a".toList [] (Err.adapter 3)
        (by decide) (by decide) rfl,
   (C18_no_partial_results
      (stubEnv "self".toList [] (fun _ _ => ([], none)) [] ([], none))
      "sa".toList "maestro::x".toList).2.2.1 "maestro".toList ["x".toList] (Err.adapter 404)
        (by decide) (by decide) (by decide) (by decide),
   (C18_no_partial_results
      (stubEnv "RO".toList [] (fun _ _ => ([], none)) [] ([], some (Err.adapter 5)))
      "sa".toList "RO::EditRole::".toList).2.2.2.2.2.1
        []
        [(buildLenderAndOwnerPermissions "RO::EditRole::*".toList).1,
         (buildLenderAndOwnerPermissions "RO::EditRole::*".toList).2.1]
        [0] [] (Err.adapter 5) (by decide) (by decide) rfl⟩

/-- C19: for every entry Prefix whose first "::"-part is neither "RO" nor
"RL", `buildLenderAndOwnerPermissions` returns an error; so `List` returns an
error, and no entry, whenever the resolver's entries contain after wildcard
synthesis a Complete entry with such a Prefix; and under a self-namespace
name without colon that is neither "RO" nor "RL", every Prefix that starts
with the name and "::" is such a Prefix. -/
theorem C19_non_level_prefix_is_error (env : Env) (saID p pfx : Str) (ams0 : List AM)
    (hO : (Split pfx).head? ≠ some OwnershipLevels.Owner)
    (hL : (Split pfx).head? ≠ some OwnershipLevels.Lender) :
    (∃ e, buildLenderAndOwnerPermissions pfx = (zeroPermission, zeroPermission, some e)) ∧
    (listPermissions env p = some (ams0, none) →
      (∃ a ∈ maybeAddStarPermissions p ams0, a.Complete = true ∧ a.Prefix = pfx) →
      ∃ e, amList env saID p = some ([], some e)) ∧
    (':' ∉ env.appName → env.appName ≠ OwnershipLevels.Owner →
      env.appName ≠ OwnershipLevels.Lender →
      ∀ t, ∃ e, buildLenderAndOwnerPermissions (env.appName ++ sep ++ t)
        = (zeroPermission, zeroPermission, some e)) := by
  have hb := buildLenderAndOwnerPermissions_error pfx hO hL
  refine ⟨hb, ?_, ?_⟩
  · rintro hres ⟨a, ha, hc, hp⟩
    obtain ⟨e, he⟩ := hb
    apply amList_of_derivation_error env saID p ams0 hres
    refine ⟨a, ha, hc, ?_⟩
    rw [hp, he]
    simp
  · intro hname hnO hnL t
    apply buildLenderAndOwnerPermissions_error
    · rw [Split_append_sep _ _ hname]
      simpa using hnO
    · rw [Split_append_sep _ _ hname]
      simpa using hnL

theorem C19_non_level_prefix_is_error_witness :
    (∃ e, buildLenderAndOwnerPermissions "Will.IAM::EditRole::r1".toList
      = (zeroPermission, zeroPermission, some e)) ∧
    ∃ e, amList
        (stubEnv "Will.IAM".toList []
          (lookupAt "r".toList { ID := "r1".toList, Name := "Role one".toList })
          [] ([true, true], none))
        "sa".toList "Will.IAM::EditRole::r".toList = some ([], some e) :=
  ⟨(C19_non_level_prefix_is_error
      (stubEnv "Will.IAM".toList []
        (lookupAt "r".toList { ID := "r1".toList, Name := "Role one".toList })
        [] ([true, true], none))
      "sa".toList "Will.IAM::EditRole::r".toList "Will.IAM::EditRole::r1".toList
      [{ Prefix := "Will.IAM::EditRole::r1".toList, Alias := "Role one".toList,
         Complete := true, Lender := false, Owner := false }]
      (by decide) (by decide)).1,
   (C19_non_level_prefix_is_error
      (stubEnv "Will.IAM".toList []
        (lookupAt "r".toList { ID := "r1".toList, Name := "Role one".toList })
        [] ([true, true], none))
      "sa".toList "Will.IAM::EditRole::r".toList "Will.IAM::EditRole::r1".toList
      [{ Prefix := "Will.IAM::EditRole::r1".toList, Alias := "Role one".toList,
         Complete := true, Lender := false, Owner := false }]
      (by decide) (by decide)).2.1 (by decide)
      ⟨{ Prefix := "Will.IAM::EditRole::r1".toList, Alias := "Role one".toList,
         Complete := true, Lender := false, Owner := false }, by decide, rfl, rfl⟩⟩

/-- C20: wildcard synthesis is idempotent: applying
`maybeAddStarPermissions` with the same prefix to its own result changes
nothing, so a synthesized wildcard is never added a second time. -/
theorem C20_maybeAddStarPermissions_idempotent (pfx : Str) (ams : List AM) :
    maybeAddStarPermissions pfx (maybeAddStarPermissions pfx ams)
      = maybeAddStarPermissions pfx ams := by
  cases h1 : (!HasSuffix pfx sep || decide ((Split pfx).length > 3)) with
  | true => rw [maybeAddStarPermissions_of_guard pfx _ h1]
  | false =>
    cases h2 : hasStarEntry ams with
    | true =>
      rw [maybeAddStarPermissions_of_star pfx ams h2, maybeAddStarPermissions_of_star pfx ams h2]
    | false =>
      have hsuf : HasSuffix pfx sep = true := by
        cases hb : HasSuffix pfx sep with
        | true => rfl
        | false => rw [hb] at h1; simp at h1
      have hstar : HasSuffix (pfx ++ "*".toList) "::*".toList = true := by
        rw [HasSuffix_iff] at hsuf ⊢
        obtain ⟨t, ht⟩ := hsuf
        exact ⟨t, by rw [← ht]; simp [sep]⟩
      rw [maybeAddStarPermissions_of_neither pfx ams h1 h2]
      apply maybeAddStarPermissions_of_star
      rw [hasStarEntry, if_pos hstar]

theorem C20_maybeAddStarPermissions_idempotent_witness :
    maybeAddStarPermissions "svc::Act::".toList
        (maybeAddStarPermissions "svc::Act::".toList
          [{ Prefix := "svc::Act::x".toList, Alias := [], Complete := true,
             Lender := false, Owner := false }])
      = [{ Prefix := "svc::Act::*".toList, Alias := [], Complete := true,
           Lender := false, Owner := false },
         { Prefix := "svc::Act::x".toList, Alias := [], Complete := true,
           Lender := false, Owner := false }] :=
  (C20_maybeAddStarPermissions_idempotent "svc::Act::".toList _).trans (by decide)

end WillIAM
